import Mathlib

/-!
# Straight-line programs of Bertini 2: the evaluator

A shallow embedding of `core/include/bertini2/system/straight_line_program.hpp`:
the opcode set with its arity predicates, the layout records, the hot loop
`Eval<NumT>()`, the two public `Eval` overloads, the staging functions
`CopyVariableValues` / `CopyPathVariable`, `HavePathVariable`, the accessors
`GetFuncVals`, `GetJacobian` and `GetTimeDeriv`, and `SLPCompiler::DealWithNumber`.

Conventions of the embedding.

* `size_t` words are natural numbers; the loop counter `int ii` is a natural
  number too (streams shorter than `2^31` words).
* The scalar type `NumT` is a type parameter `α` together with a record `Scalar α`
  of the operators the source applies to it; the operators are total functions,
  as they are written in the source.
* A `std::vector` is a `List`.  An access outside a container has no defined
  behaviour in C++; it is made observable here as the result
  `SLPError.outOfRange`.  A thrown `std::runtime_error` is `SLPError.runtimeError`.
* The functions that assign to the bank work in place, so a call that fails leaves the
  bank as it was at the failure; a failing outcome therefore carries that state next to
  the error (`Result`).
* `memory_` is a tuple of two banks, one per scalar type, and every function
  selects the bank of its `NumT`; the record below carries the selected bank.
-/

namespace bertini

/-! ## Opcodes -/

/-- The enumeration `Operation`. -/
inductive Operation where
  | Add | Subtract | Multiply | Divide | Power
  | Exp | Log | Negate
  | Sin | Cos | Tan | Asin | Acos | Atan
  | Assign
  deriving DecidableEq, Repr

/-- The enumerator values: `Add = 1 << 0`, ..., `Assign = 1 << 14`. -/
def Operation.code : Operation → Nat
  | .Add => 1 <<< 0
  | .Subtract => 1 <<< 1
  | .Multiply => 1 <<< 2
  | .Divide => 1 <<< 3
  | .Power => 1 <<< 4
  | .Exp => 1 <<< 5
  | .Log => 1 <<< 6
  | .Negate => 1 <<< 7
  | .Sin => 1 <<< 8
  | .Cos => 1 <<< 9
  | .Tan => 1 <<< 10
  | .Asin => 1 <<< 11
  | .Acos => 1 <<< 12
  | .Atan => 1 <<< 13
  | .Assign => 1 <<< 14

/-- All fifteen enumerators, in declaration order. -/
def Operation.all : List Operation :=
  [.Add, .Subtract, .Multiply, .Divide, .Power, .Exp, .Log, .Negate,
   .Sin, .Cos, .Tan, .Asin, .Acos, .Atan, .Assign]

open Operation in
/-- The constant `BinaryOperations = Add|Subtract | Multiply|Divide | Power`. -/
def BinaryOperations : Nat :=
  Add.code ||| Subtract.code ||| Multiply.code ||| Divide.code ||| Power.code

open Operation in
/-- The constant `TrigOperations = Sin|Cos|Tan | Asin|Acos|Atan`. -/
def TrigOperations : Nat :=
  Sin.code ||| Cos.code ||| Tan.code ||| Asin.code ||| Acos.code ||| Atan.code

open Operation in
/-- The constant `UnaryOperations = Exp|Log | Negate | Assign | TrigOperations`. -/
def UnaryOperations : Nat :=
  Exp.code ||| Log.code ||| Negate.code ||| Assign.code ||| TrigOperations

/-- The predicate `IsUnary(op)`: `return op & UnaryOperations;` converted to `bool`.
The argument is the integer value of the operand: the loop applies the predicate
to `static_cast<Operation>(instructions_[ii])`, an arbitrary word. -/
def IsUnary (op : Nat) : Bool := (op &&& UnaryOperations) != 0

/-- The predicate `IsBinary(op)`: `return op & BinaryOperations;` converted to `bool`. -/
def IsBinary (op : Nat) : Bool := (op &&& BinaryOperations) != 0

/-! ## Scalars, errors, containers -/

/-- The operators `Eval<NumT>()` applies to the scalar type `NumT`. -/
structure Scalar (α : Type) where
  add : α → α → α
  sub : α → α → α
  mul : α → α → α
  div : α → α → α
  pow : α → α → α
  neg : α → α
  log : α → α
  exp : α → α
  sin : α → α
  cos : α → α
  tan : α → α
  asin : α → α
  acos : α → α
  atan : α → α

/-- The ways a call can fail. -/
inductive SLPError where
  /-- A `std::runtime_error` thrown by the source, with its message. -/
  | runtimeError (msg : String)
  /-- An index outside a container (no defined behaviour in C++). -/
  | outOfRange
  /-- The loop model ran out of steps (never the case for `Eval`, see `evalLoop_not_outOfFuel`). -/
  | outOfFuel
  deriving DecidableEq, Repr

/-- The outcome of a call that works in place on a state `σ`: the state after the call, or
the error together with the state at the moment of the failure. -/
abbrev Result (σ : Type) : Type := Except (SLPError × σ) σ

/-- Assign `memory[i] = v`. -/
def writeMem {α : Type} (memory : List α) (i : Nat) (v : α) : Except SLPError (List α) :=
  if i < memory.length then .ok (memory.set i v) else .error .outOfRange

/-! ## The hot loop `Eval<NumT>()` -/

/-- A binary case of the switch:
`memory[instructions_[ii+3]] = memory[instructions_[ii+1]] ⊕ memory[instructions_[ii+2]]`. -/
def binaryCase {α : Type} (f : α → α → α) (instructions_ : List Nat) (ii : Nat)
    (memory : List α) : Except SLPError (List α) :=
  match instructions_[ii+1]?, instructions_[ii+2]?, instructions_[ii+3]? with
  | some s1, some s2, some d =>
    match memory[s1]?, memory[s2]? with
    | some a, some b => writeMem memory d (f a b)
    | _, _ => .error .outOfRange
  | _, _, _ => .error .outOfRange

/-- A unary case of the switch:
`memory[instructions_[ii+2]] = f(memory[instructions_[ii+1]])`. -/
def unaryCase {α : Type} (f : α → α) (instructions_ : List Nat) (ii : Nat)
    (memory : List α) : Except SLPError (List α) :=
  match instructions_[ii+1]?, instructions_[ii+2]? with
  | some s, some d =>
    match memory[s]? with
    | some a => writeMem memory d (f a)
    | none => .error .outOfRange
  | _, _ => .error .outOfRange

open Operation in
/-- The `switch (instructions_[ii])` of the loop body, for a word `w = instructions_[ii]`.
A word that matches no case label falls through the switch. -/
def switchBody {α : Type} (S : Scalar α) (instructions_ : List Nat) (ii : Nat) (w : Nat)
    (memory : List α) : Except SLPError (List α) :=
  if w = Add.code then binaryCase S.add instructions_ ii memory
  else if w = Subtract.code then binaryCase S.sub instructions_ ii memory
  else if w = Multiply.code then binaryCase S.mul instructions_ ii memory
  else if w = Divide.code then binaryCase S.div instructions_ ii memory
  else if w = Power.code then binaryCase S.pow instructions_ ii memory
  else if w = Assign.code then unaryCase (fun x => x) instructions_ ii memory
  else if w = Negate.code then unaryCase S.neg instructions_ ii memory
  else if w = Log.code then unaryCase S.log instructions_ ii memory
  else if w = Exp.code then unaryCase S.exp instructions_ ii memory
  else if w = Sin.code then unaryCase S.sin instructions_ ii memory
  else if w = Cos.code then unaryCase S.cos instructions_ ii memory
  else if w = Tan.code then unaryCase S.tan instructions_ ii memory
  else if w = Asin.code then unaryCase S.asin instructions_ ii memory
  else if w = Acos.code then unaryCase S.acos instructions_ ii memory
  else if w = Atan.code then unaryCase S.atan instructions_ ii memory
  else .ok memory

/-- The increment at the end of the loop body: by 3 when `IsUnary`, else by 4. -/
def nextIndex (ii : Nat) (w : Nat) : Nat := if IsUnary w then ii + 3 else ii + 4

/-- The loop `for (int ii = 0; ii<instructions_.size();) { ... }` from index `ii`,
running at most `fuel` iterations. -/
def evalLoop {α : Type} (S : Scalar α) (instructions_ : List Nat) :
    Nat → Nat → List α → Result (List α)
  | 0, ii, memory =>
    if ii < instructions_.length then .error (.outOfFuel, memory) else .ok memory
  | fuel + 1, ii, memory =>
    match instructions_[ii]? with
    | none => .ok memory
    | some w =>
      match switchBody S instructions_ ii w memory with
      | .error e => .error (e, memory)
      | .ok memory' => evalLoop S instructions_ fuel (nextIndex ii w) memory'

/-- The member `Eval<NumT>()`, on the instruction stream and the selected bank of the
object.  Every iteration advances the index by at least 3, so as many iterations as
the stream has words are enough. -/
def Eval {α : Type} (S : Scalar α) (instructions_ : List Nat) (memory : List α) :
    Result (List α) :=
  evalLoop S instructions_ instructions_.length 0 memory

/-! ## Layout records and the program object -/

/-- The struct `OutputLocations`: the starting locations of things in the SLP. -/
structure OutputLocations where
  Functions : Nat := 0
  Variables : Nat := 0
  Jacobian : Nat := 0
  TimeDeriv : Nat := 0
  deriving DecidableEq, Repr

/-- The struct `InputLocations`. -/
structure InputLocations where
  Variables : Nat := 0
  Time : Nat := 0
  deriving DecidableEq, Repr

/-- The struct `NumberOf`: the numbers of things appearing in the SLP. -/
structure NumberOf where
  Functions : Nat := 0
  Variables : Nat := 0
  Jacobian : Nat := 0
  TimeDeriv : Nat := 0
  deriving DecidableEq, Repr

/-- The data members of `StraightLineProgram`, with the bank of the scalar type `α`.
A node pointer of `true_values_of_numbers_` is represented by its address. -/
structure StraightLineProgram (α : Type) where
  precision_ : Nat := 0
  has_path_variable_ : Bool := false
  number_of_ : NumberOf := {}
  output_locations_ : OutputLocations := {}
  input_locations_ : InputLocations := {}
  memory_ : List α := []
  instructions_ : List Nat := []
  true_values_of_numbers_ : List (Nat × Nat) := []

/-- A counting loop `for (int ii = 0; ii < n; ++ii) body(ii)`: the iterations
`0, 1, ..., n-1` in this order, stopping at the first failure. -/
def forLoop {σ : Type} (body : Nat → σ → Result σ) : Nat → σ → Result σ
  | 0, s => .ok s
  | n + 1, s =>
    match forLoop body n s with
    | .error f => .error f
    | .ok s' => body n s'

/-- A statement that works on the state `s`: when it fails, the state is still `s`. -/
def statement {σ : Type} (s : σ) (r : Except SLPError σ) : Result σ :=
  match r with
  | .error e => .error (e, s)
  | .ok s' => .ok s'

namespace StraightLineProgram

/-- The accessor `NumFunctions()`. -/
def NumFunctions {α : Type} (slp : StraightLineProgram α) : Nat := slp.number_of_.Functions

/-- The accessor `NumVariables()`. -/
def NumVariables {α : Type} (slp : StraightLineProgram α) : Nat := slp.number_of_.Variables

/-- The member `CopyVariableValues(variable_values)`:
`memory[ii + output_locations_.Variables] = variable_values(ii)` for `ii < number_of_.Variables`. -/
def CopyVariableValues {α : Type} (slp : StraightLineProgram α) (variable_values : List α) :
    Result (StraightLineProgram α) :=
  match forLoop (fun ii memory => statement memory
      (match variable_values[ii]? with
      | some v => writeMem memory (ii + slp.output_locations_.Variables) v
      | none => .error .outOfRange)) slp.number_of_.Variables slp.memory_ with
  | .error (e, memory) => .error (e, { slp with memory_ := memory })
  | .ok memory => .ok { slp with memory_ := memory }

/-- The member `HavePathVariable()`: its body throws before the `return`. -/
def HavePathVariable {α : Type} (_slp : StraightLineProgram α) : Except SLPError Bool :=
  .error (.runtimeError "calling unimplemented function HavePathVariable")

/-- The member `CopyPathVariable(time)`: throws when `HavePathVariable()` is false, and
copies nothing (the copy is a comment in the source). -/
def CopyPathVariable {α : Type} (slp : StraightLineProgram α) (_time : α) :
    Result (StraightLineProgram α) :=
  match slp.HavePathVariable with
  | .error e => .error (e, slp)
  | .ok b =>
    if !b then
      .error (.runtimeError "calling Eval with path variable, but system doesn't have one.",
        slp)
    else .ok slp

/-- The member `Eval<NumT>()` on the object: runs the loop on `instructions_` and the bank. -/
def EvalNumT {α : Type} (S : Scalar α) (slp : StraightLineProgram α) :
    Result (StraightLineProgram α) :=
  match Eval S slp.instructions_ slp.memory_ with
  | .error (e, memory) => .error (e, { slp with memory_ := memory })
  | .ok memory => .ok { slp with memory_ := memory }

/-- The overload `Eval(variable_values)`. -/
def EvalVars {α : Type} (S : Scalar α) (slp : StraightLineProgram α) (variable_values : List α) :
    Result (StraightLineProgram α) :=
  match slp.CopyVariableValues variable_values with
  | .error f => .error f
  | .ok slp1 => slp1.EvalNumT S

/-- The overload `Eval(variable_values, time)`. -/
def EvalVarsTime {α : Type} (S : Scalar α) (slp : StraightLineProgram α)
    (variable_values : List α) (time : α) : Result (StraightLineProgram α) :=
  match slp.CopyVariableValues variable_values with
  | .error f => .error f
  | .ok slp1 =>
    match slp1.CopyPathVariable time with
    | .error f => .error f
    | .ok slp2 => slp2.EvalNumT S

end StraightLineProgram

/-! ## Result containers -/

/-- Modelled from the spec: the vector type `Vec<NumT>` of `eigen_extensions.hpp`, a
resizable container of scalars; a coefficient that has not been assigned since the last
resize is `none`. -/
structure Vec (α : Type) where
  size : Nat
  coeff : Nat → Option α

/-- Modelled from the spec: the matrix type `Mat<NumT>` of `eigen_extensions.hpp`, a
resizable container of scalars addressed by row and column. -/
structure Mat (α : Type) where
  rows : Nat
  cols : Nat
  coeff : Nat → Nat → Option α

/-- The call `result.resize(n)`. -/
def Vec.resize {α : Type} (_v : Vec α) (n : Nat) : Vec α := ⟨n, fun _ => none⟩

/-- The assignment `result(i) = x`. -/
def Vec.assign {α : Type} (v : Vec α) (i : Nat) (x : α) : Except SLPError (Vec α) :=
  if i < v.size then .ok { v with coeff := fun k => if k = i then some x else v.coeff k }
  else .error .outOfRange

/-- The call `result.resize(r, c)`. -/
def Mat.resize {α : Type} (_m : Mat α) (r c : Nat) : Mat α := ⟨r, c, fun _ _ => none⟩

/-- The assignment `result(i, j) = x`. -/
def Mat.assign {α : Type} (m : Mat α) (i j : Nat) (x : α) : Except SLPError (Mat α) :=
  if i < m.rows ∧ j < m.cols then
    .ok { m with coeff := fun k l => if k = i ∧ l = j then some x else m.coeff k l }
  else .error .outOfRange

namespace StraightLineProgram

/-- The member `GetFuncVals(result)`; returns the result and the object after the call. -/
def GetFuncVals {α : Type} (slp : StraightLineProgram α) (result : Vec α) :
    Except SLPError (Vec α × StraightLineProgram α) :=
  match forLoop (fun ii r => statement r
      (match slp.memory_[ii + slp.output_locations_.Functions]? with
      | some v => r.assign ii v
      | none => .error .outOfRange)) slp.number_of_.Functions
      (result.resize slp.number_of_.Functions) with
  | .error (e, _) => .error e
  | .ok r => .ok (r, slp)

/-- The index expression of `GetJacobian`:
`ii+jj*number_of_.Functions + output_locations_.Jacobian`. -/
abbrev jacobianSlot {α : Type} (slp : StraightLineProgram α) (ii jj : Nat) : Nat :=
  ii + jj * slp.number_of_.Functions + slp.output_locations_.Jacobian

/-- The member `GetJacobian(result)`; returns the result and the object after the call. -/
def GetJacobian {α : Type} (slp : StraightLineProgram α) (result : Mat α) :
    Except SLPError (Mat α × StraightLineProgram α) :=
  match forLoop (fun jj r0 =>
      forLoop (fun ii r => statement r
        (match slp.memory_[slp.jacobianSlot ii jj]? with
        | some v => r.assign ii jj v
        | none => .error .outOfRange)) slp.number_of_.Functions r0)
      slp.number_of_.Variables
      (result.resize slp.number_of_.Functions slp.number_of_.Variables) with
  | .error (e, _) => .error e
  | .ok r => .ok (r, slp)

/-- The member `GetTimeDeriv(result)`; returns the result and the object after the call. -/
def GetTimeDeriv {α : Type} (slp : StraightLineProgram α) (result : Vec α) :
    Except SLPError (Vec α × StraightLineProgram α) :=
  match forLoop (fun ii r => statement r
      (match slp.memory_[ii + slp.output_locations_.TimeDeriv]? with
      | some v => r.assign ii v
      | none => .error .outOfRange)) slp.number_of_.Functions
      (result.resize slp.number_of_.Functions) with
  | .error (e, _) => .error e
  | .ok r => .ok (r, slp)

end StraightLineProgram

/-! ## Instruction streams -/

/-- One instruction `(opcode, src1, [src2,] dst)`; `src2` is not part of a unary one. -/
structure Instruction where
  op : Operation
  src1 : Nat
  src2 : Nat
  dst : Nat
  deriving DecidableEq, Repr

/-- The words of a complete instruction: 4 for a binary opcode, 3 for a unary one. -/
def Instruction.words (i : Instruction) : List Nat :=
  if IsUnary i.op.code then [i.op.code, i.src1, i.dst]
  else [i.op.code, i.src1, i.src2, i.dst]

/-- The source slots of an instruction. -/
def Instruction.sources (i : Instruction) : List Nat :=
  if IsUnary i.op.code then [i.src1] else [i.src1, i.src2]

/-- The stream that is the concatenation of the given complete instructions. -/
def encode : List Instruction → List Nat
  | [] => []
  | i :: is => i.words ++ encode is

/-- Every source and destination slot of the instruction is below `n`. -/
def Instruction.inBounds (n : Nat) (i : Instruction) : Prop :=
  (∀ s ∈ i.sources, s < n) ∧ i.dst < n

instance (n : Nat) (i : Instruction) : Decidable (i.inBounds n) := by
  unfold Instruction.inBounds; infer_instance

/-- The function an opcode applies to its operands: second operand unused when unary. -/
def Operation.apply {α : Type} (S : Scalar α) : Operation → α → α → α
  | .Add, a, b => S.add a b
  | .Subtract, a, b => S.sub a b
  | .Multiply, a, b => S.mul a b
  | .Divide, a, b => S.div a b
  | .Power, a, b => S.pow a b
  | .Exp, a, _ => S.exp a
  | .Log, a, _ => S.log a
  | .Negate, a, _ => S.neg a
  | .Sin, a, _ => S.sin a
  | .Cos, a, _ => S.cos a
  | .Tan, a, _ => S.tan a
  | .Asin, a, _ => S.asin a
  | .Acos, a, _ => S.acos a
  | .Atan, a, _ => S.atan a
  | .Assign, a, _ => a

/-- One step of the loop on a complete instruction, read off the switch: the operands
are fetched, then the destination is assigned. -/
def Instruction.exec {α : Type} (S : Scalar α) (i : Instruction) (memory : List α) :
    Except SLPError (List α) :=
  if IsUnary i.op.code then
    match memory[i.src1]? with
    | some a => writeMem memory i.dst (i.op.apply S a a)
    | none => .error .outOfRange
  else
    match memory[i.src1]?, memory[i.src2]? with
    | some a, some b => writeMem memory i.dst (i.op.apply S a b)
    | _, _ => .error .outOfRange

/-- Running the steps of a list of instructions in order. -/
def execAll {α : Type} (S : Scalar α) : List Instruction → List α → Result (List α)
  | [], memory => .ok memory
  | i :: is, memory =>
    match i.exec S memory with
    | .error e => .error (e, memory)
    | .ok memory' => execAll S is memory'

/-! ## A scalar type for running the program on concrete inputs -/

/-- Symbolic scalars: the terms built from named values by the fourteen operators. -/
inductive Sym where
  | val (n : Nat)
  | add (a b : Sym) | sub (a b : Sym) | mul (a b : Sym) | div (a b : Sym) | pow (a b : Sym)
  | neg (a : Sym) | log (a : Sym) | exp (a : Sym)
  | sin (a : Sym) | cos (a : Sym) | tan (a : Sym)
  | asin (a : Sym) | acos (a : Sym) | atan (a : Sym)
  deriving DecidableEq, Repr

/-- The operators of the symbolic scalars build the term. -/
def symScalar : Scalar Sym :=
  { add := .add, sub := .sub, mul := .mul, div := .div, pow := .pow, neg := .neg,
    log := .log, exp := .exp, sin := .sin, cos := .cos, tan := .tan,
    asin := .asin, acos := .acos, atan := .atan }

/-! ## Vocabulary of the statements -/

/-- The outcome `r` is a bank that holds `v` in slot `d`. -/
def holdsAfter {α : Type} (r : Result (List α)) (d : Nat) (v : α) : Prop :=
  ∃ m', r = .ok m' ∧ m'[d]? = some v

/-- The instruction reads only slots that are protected by `P` (input and constant slots) or
in `avail` (destinations of earlier instructions), and does not write a protected slot. -/
def Instruction.wellSourced (P : Nat → Bool) (avail : List Nat) (i : Instruction) : Bool :=
  i.sources.all (fun s => P s || decide (s ∈ avail)) && !P i.dst

/-- Every instruction of the list reads only protected slots, slots of `avail` and
destinations of instructions before it, and none writes a protected slot. -/
def wellSourced (P : Nat → Bool) : List Nat → List Instruction → Bool
  | _, [] => true
  | avail, i :: is => i.wellSourced P avail && wellSourced P (i.dst :: avail) is

/-- Two outcomes of the loop agree on the slots `A`: both are banks of one length with equal
contents in every slot of `A`, or both are the same failure. -/
def agreeOn {α : Type} (A : Nat → Prop) (x y : Result (List α)) : Prop :=
  match x, y with
  | .ok r1, .ok r2 => r1.length = r2.length ∧ ∀ s, A s → r1[s]? = r2[s]?
  | .error (e1, _), .error (e2, _) => e1 = e2
  | _, _ => False

/-! ## Concrete program objects -/

/-- A bank of seven named values. -/
def exampleBank : List Sym :=
  [Sym.val 0, Sym.val 1, Sym.val 2, Sym.val 3, Sym.val 4, Sym.val 5, Sym.val 6]

/-- An object with two functions and three variables, without a path variable: the
function values start at slot 0, the Jacobian at slot 1, the time derivative at slot 5. -/
def exampleOutputs : StraightLineProgram Sym :=
  { has_path_variable_ := false
    number_of_ := { Functions := 2, Variables := 3, Jacobian := 6, TimeDeriv := 2 }
    output_locations_ := { Functions := 0, Jacobian := 1, TimeDeriv := 5 }
    memory_ := exampleBank }

/-- The same object, with a path variable. -/
def exampleOutputsWithPath : StraightLineProgram Sym :=
  { exampleOutputs with has_path_variable_ := true }

/-- An empty result vector. -/
def emptyVec : Vec Sym := ⟨0, fun _ => none⟩

/-- An empty result matrix. -/
def emptyMat : Mat Sym := ⟨0, 0, fun _ _ => none⟩

/-- Three instructions on slots 0 to 3: `m[2] = m[0] + m[1]`, `m[3] = sin(m[2])`,
`m[2] = m[2] * m[3]`. -/
def exampleProgram : List Instruction :=
  [⟨.Add, 0, 1, 2⟩, ⟨.Sin, 2, 0, 3⟩, ⟨.Multiply, 2, 3, 2⟩]

/-- The slots 0 and 1: the inputs of `exampleProgram`. -/
def exampleInputs (s : Nat) : Bool := decide (s < 2)

/-- The state a call leaves: the state of its outcome, completed or failed. -/
def Result.state {σ : Type} : Result σ → σ
  | .ok s => s
  | .error (_, s) => s

/-- An object with a path variable, two variables in slots 0 and 1 (both location records
agree on them) and two functions in slots 2 and 3; its instructions copy slot 1 to slot 2
and slot 0 to slot 3. -/
def exampleSwap : StraightLineProgram Sym :=
  { has_path_variable_ := true
    number_of_ := { Functions := 2, Variables := 2 }
    output_locations_ := { Functions := 2, Variables := 0 }
    input_locations_ := { Variables := 0, Time := 4 }
    memory_ := [Sym.val 0, Sym.val 1, Sym.val 2, Sym.val 3, Sym.val 4]
    instructions_ := encode [⟨.Assign, 1, 0, 2⟩, ⟨.Assign, 0, 0, 3⟩] }

/-- An object with one variable and one function whose location records disagree on the
variables: `input_locations_.Variables = 0` and `output_locations_.Variables = 1`; its one
instruction copies slot `input_locations_.Variables + 0` to the function slot 2. -/
def exampleStaging : StraightLineProgram Sym :=
  { number_of_ := { Functions := 1, Variables := 1 }
    output_locations_ := { Functions := 2, Variables := 1 }
    input_locations_ := { Variables := 0 }
    memory_ := [Sym.val 0, Sym.val 1, Sym.val 2]
    instructions_ := encode [⟨.Assign, 0, 0, 2⟩] }

/-! ## The compiler -/

/-- Modelled from the spec: the body of `StraightLineProgram::AddNumber(num, loc)`, which the
header only declares ("Add a number to the memory at location, and memoize it for precision
changing later").  The constant table is a sequence of `(symbolic_value, slot)` pairs, and
registering a number in it appends the pair of the node and its slot. -/
def StraightLineProgram.AddNumber {α : Type} (slp : StraightLineProgram α) (num : Nat)
    (loc : Nat) : StraightLineProgram α :=
  { slp with true_values_of_numbers_ := slp.true_values_of_numbers_ ++ [(num, loc)] }

/-- The data members of `SLPCompiler`.  The registry `std::map<Nd, size_t>` is a finite map
from node pointers, represented by their addresses, to slots; a pointer without an entry is
mapped to `none`. -/
structure SLPCompiler (α : Type) where
  next_available_mem_ : Nat := 0
  locations_encountered_symbols_ : Nat → Option Nat := fun _ => none
  slp_under_construction_ : StraightLineProgram α := {}

/-- The member `DealWithNumber(n)`, for the node with pointer `nd = n.shared_from_this()`:
`slp_under_construction_.AddNumber(nd, next_available_mem_)`, then
`locations_encountered_symbols_[nd] = next_available_mem_++`, which assigns the old value of
the counter to the entry of `nd` (added when absent) and increments the counter. -/
def SLPCompiler.DealWithNumber {α : Type} (c : SLPCompiler α) (nd : Nat) : SLPCompiler α :=
  { next_available_mem_ := c.next_available_mem_ + 1
    locations_encountered_symbols_ := fun k =>
      if k = nd then some c.next_available_mem_ else c.locations_encountered_symbols_ k
    slp_under_construction_ := c.slp_under_construction_.AddNumber nd c.next_available_mem_ }

/-- A compiler state with two registered nodes, at addresses 100 and 200, in slots 0 and 1,
and next free slot 2. -/
def exampleCompiler : SLPCompiler Sym :=
  { next_available_mem_ := 2
    locations_encountered_symbols_ := fun k =>
      if k = 100 then some 0 else if k = 200 then some 1 else none
    slp_under_construction_ := { true_values_of_numbers_ := [(200, 1)] } }

/-! ## The loop on a stream of complete instructions -/

theorem IsUnary_code (op : Operation) :
    IsUnary op.code = decide (op ∈ [Operation.Assign, .Negate, .Exp, .Log, .Sin, .Cos, .Tan,
      .Asin, .Acos, .Atan]) := by
  cases op <;> decide

theorem IsBinary_code (op : Operation) :
    IsBinary op.code = decide (op ∈ [Operation.Add, .Subtract, .Multiply, .Divide, .Power]) := by
  cases op <;> decide

theorem getElem?_shift {β : Type} (pre s : List β) (k : Nat) :
    (pre ++ s)[pre.length + k]? = s[k]? := by
  rw [List.getElem?_append_right (Nat.le_add_right _ _)]
  simp

theorem switchBody_shift {α : Type} (S : Scalar α) (pre s : List Nat) (j w : Nat)
    (m : List α) :
    switchBody S (pre ++ s) (pre.length + j) w m = switchBody S s j w m := by
  have h1 := getElem?_shift pre s (j + 1)
  have h2 := getElem?_shift pre s (j + 2)
  have h3 := getElem?_shift pre s (j + 3)
  simp only [← Nat.add_assoc] at h1 h2 h3
  simp only [switchBody, binaryCase, unaryCase, h1, h2, h3]

theorem evalLoop_shift {α : Type} (S : Scalar α) (pre s : List Nat) (fuel j : Nat)
    (m : List α) :
    evalLoop S (pre ++ s) fuel (pre.length + j) m = evalLoop S s fuel j m := by
  induction fuel generalizing j m with
  | zero => simp [evalLoop]
  | succ fuel ih =>
    simp only [evalLoop, getElem?_shift, switchBody_shift]
    cases h : s[j]? with
    | none => rfl
    | some w =>
      simp only
      cases hs : switchBody S s j w m with
      | error e => rfl
      | ok m' =>
        simp only
        have : nextIndex (pre.length + j) w = pre.length + nextIndex j w := by
          unfold nextIndex; split <;> omega
        rw [this, ih]

theorem le_nextIndex (ii w : Nat) : ii + 3 ≤ nextIndex ii w := by
  unfold nextIndex; split <;> omega

theorem evalLoop_fuel {α : Type} (S : Scalar α) (instr : List Nat) (f1 f2 ii : Nat)
    (m : List α) (h1 : instr.length ≤ ii + f1) (h2 : instr.length ≤ ii + f2) :
    evalLoop S instr f1 ii m = evalLoop S instr f2 ii m := by
  induction f1 generalizing f2 ii m with
  | zero =>
    have hn : instr[ii]? = none := List.getElem?_eq_none (by omega)
    cases f2 with
    | zero => rfl
    | succ f2 =>
      simp only [evalLoop, hn]
      rw [if_neg (by omega)]
  | succ f1 ih =>
    cases f2 with
    | zero =>
      have hn : instr[ii]? = none := List.getElem?_eq_none (by omega)
      simp only [evalLoop, hn]
      rw [if_neg (by omega)]
    | succ f2 =>
      simp only [evalLoop]
      cases h : instr[ii]? with
      | none => rfl
      | some w =>
        simp only
        cases hs : switchBody S instr ii w m with
        | error e => rfl
        | ok m' =>
          simp only
          have := le_nextIndex ii w
          exact ih f2 (nextIndex ii w) m' (by omega) (by omega)

theorem words_length (i : Instruction) : i.words.length = nextIndex 0 i.op.code := by
  unfold Instruction.words nextIndex
  split <;> simp

theorem switchBody_code {α : Type} (S : Scalar α) (op : Operation) (instr : List Nat)
    (ii : Nat) (m : List α) :
    switchBody S instr ii op.code m =
      if IsUnary op.code then unaryCase (fun a => op.apply S a a) instr ii m
      else binaryCase (op.apply S) instr ii m := by
  cases op <;> rfl

theorem switchBody_words {α : Type} (S : Scalar α) (i : Instruction) (rest : List Nat)
    (m : List α) :
    switchBody S (i.words ++ rest) 0 i.op.code m = i.exec S m := by
  rw [switchBody_code]
  unfold Instruction.exec Instruction.words
  cases IsUnary i.op.code <;> simp [unaryCase, binaryCase]

theorem Eval_nil {α : Type} (S : Scalar α) (m : List α) : Eval S [] m = .ok m := rfl

theorem Eval_cons {α : Type} (S : Scalar α) (i : Instruction) (rest : List Nat)
    (m : List α) :
    Eval S (i.words ++ rest) m =
      match i.exec S m with
      | .error e => .error (e, m)
      | .ok m' => Eval S rest m' := by
  have hlen : (i.words ++ rest).length = (nextIndex 0 i.op.code - 1 + rest.length) + 1 := by
    have := le_nextIndex 0 i.op.code
    rw [List.length_append, words_length]; omega
  have h0 : (i.words ++ rest)[0]? = some i.op.code := by
    unfold Instruction.words; split <;> rfl
  unfold Eval
  rw [hlen, evalLoop, h0]
  simp only [switchBody_words]
  cases i.exec S m with
  | error e => rfl
  | ok m' =>
    simp only
    have h := evalLoop_shift S i.words rest (nextIndex 0 i.op.code - 1 + rest.length) 0 m'
    rw [Nat.add_zero, words_length] at h
    rw [h]
    exact evalLoop_fuel S rest _ _ 0 m' (by omega) (by omega)

theorem Eval_encode {α : Type} (S : Scalar α) (is : List Instruction) (m : List α) :
    Eval S (encode is) m = execAll S is m := by
  induction is generalizing m with
  | nil => rfl
  | cons i is ih =>
    rw [encode, Eval_cons, execAll]
    cases i.exec S m with
    | error e => rfl
    | ok m' => exact ih m'

theorem Eval_words {α : Type} (S : Scalar α) (i : Instruction) (m : List α) :
    Eval S i.words m =
      match i.exec S m with
      | .error e => .error (e, m)
      | .ok m' => .ok m' := by
  have h := Eval_cons S i [] m
  rw [List.append_nil] at h
  rw [h]
  cases i.exec S m <;> rfl

theorem holdsAfter_binary {α : Type} (S : Scalar α) (op : Operation) (m : List α)
    (s1 s2 d : Nat) (a b : α) (hop : IsUnary op.code = false)
    (h1 : m[s1]? = some a) (h2 : m[s2]? = some b) (hd : d < m.length) :
    holdsAfter (Eval S [op.code, s1, s2, d] m) d (op.apply S a b) := by
  have hw : [op.code, s1, s2, d] = Instruction.words ⟨op, s1, s2, d⟩ := by
    simp [Instruction.words, hop]
  rw [hw, Eval_words]
  simp only [Instruction.exec, hop, h1, h2, writeMem, hd, if_true, Bool.false_eq_true, if_false]
  exact ⟨_, rfl, by simp [hd]⟩

theorem holdsAfter_unary {α : Type} (S : Scalar α) (op : Operation) (m : List α)
    (s d : Nat) (a : α) (hop : IsUnary op.code = true)
    (h1 : m[s]? = some a) (hd : d < m.length) :
    holdsAfter (Eval S [op.code, s, d] m) d (op.apply S a a) := by
  have hw : [op.code, s, d] = Instruction.words ⟨op, s, 0, d⟩ := by
    simp [Instruction.words, hop]
  rw [hw, Eval_words]
  simp only [Instruction.exec, hop, h1, writeMem, hd, if_true]
  exact ⟨_, rfl, by simp [hd]⟩

open Operation in
/-- C1. One instruction with in-bounds slots: a binary instruction `[op, s1, s2, d]` leaves
in slot `d` the sum, difference, product, quotient or power of the values `a`, `b` that
slots `s1`, `s2` held before the step; a unary instruction `[op, s1, d]` leaves in `d` the
value `a` itself for `Assign`, its negation for `Negate`, and `exp`, `log`, `sin`, `cos`,
`tan`, `asin`, `acos`, `atan` of `a` for the opcode of that name.  Nothing is assumed
about `d`, which may be `s1` or `s2`. -/
theorem Eval_single_instruction {α : Type} (S : Scalar α) (m : List α) (s1 s2 d : Nat)
    (a b : α) (h1 : m[s1]? = some a) (h2 : m[s2]? = some b) (hd : d < m.length) :
    holdsAfter (Eval S [Add.code, s1, s2, d] m) d (S.add a b) ∧
    holdsAfter (Eval S [Subtract.code, s1, s2, d] m) d (S.sub a b) ∧
    holdsAfter (Eval S [Multiply.code, s1, s2, d] m) d (S.mul a b) ∧
    holdsAfter (Eval S [Divide.code, s1, s2, d] m) d (S.div a b) ∧
    holdsAfter (Eval S [Power.code, s1, s2, d] m) d (S.pow a b) ∧
    holdsAfter (Eval S [Assign.code, s1, d] m) d a ∧
    holdsAfter (Eval S [Negate.code, s1, d] m) d (S.neg a) ∧
    holdsAfter (Eval S [Exp.code, s1, d] m) d (S.exp a) ∧
    holdsAfter (Eval S [Log.code, s1, d] m) d (S.log a) ∧
    holdsAfter (Eval S [Sin.code, s1, d] m) d (S.sin a) ∧
    holdsAfter (Eval S [Cos.code, s1, d] m) d (S.cos a) ∧
    holdsAfter (Eval S [Tan.code, s1, d] m) d (S.tan a) ∧
    holdsAfter (Eval S [Asin.code, s1, d] m) d (S.asin a) ∧
    holdsAfter (Eval S [Acos.code, s1, d] m) d (S.acos a) ∧
    holdsAfter (Eval S [Atan.code, s1, d] m) d (S.atan a) := by
  exact ⟨holdsAfter_binary S Add m s1 s2 d a b (by decide) h1 h2 hd,
    holdsAfter_binary S Subtract m s1 s2 d a b (by decide) h1 h2 hd,
    holdsAfter_binary S Multiply m s1 s2 d a b (by decide) h1 h2 hd,
    holdsAfter_binary S Divide m s1 s2 d a b (by decide) h1 h2 hd,
    holdsAfter_binary S Power m s1 s2 d a b (by decide) h1 h2 hd,
    holdsAfter_unary S Assign m s1 d a (by decide) h1 hd,
    holdsAfter_unary S Negate m s1 d a (by decide) h1 hd,
    holdsAfter_unary S Exp m s1 d a (by decide) h1 hd,
    holdsAfter_unary S Log m s1 d a (by decide) h1 hd,
    holdsAfter_unary S Sin m s1 d a (by decide) h1 hd,
    holdsAfter_unary S Cos m s1 d a (by decide) h1 hd,
    holdsAfter_unary S Tan m s1 d a (by decide) h1 hd,
    holdsAfter_unary S Asin m s1 d a (by decide) h1 hd,
    holdsAfter_unary S Acos m s1 d a (by decide) h1 hd,
    holdsAfter_unary S Atan m s1 d a (by decide) h1 hd⟩

/-- C1 at a concrete bank, with the destination equal to the first source. -/
theorem Eval_single_instruction_witness :
    ([Sym.val 7, Sym.val 8, Sym.val 9] : List Sym)[0]? = some (Sym.val 7) ∧
    holdsAfter (Eval symScalar [Operation.Add.code, 0, 1, 0] [Sym.val 7, Sym.val 8, Sym.val 9])
      0 (Sym.add (Sym.val 7) (Sym.val 8)) :=
  ⟨rfl, (Eval_single_instruction symScalar [Sym.val 7, Sym.val 8, Sym.val 9] 0 1 0
    (Sym.val 7) (Sym.val 8) rfl rfl (by decide)).1⟩

/-- C2. Execution in stream order: for every stream `encode is` of complete instructions
(4 words after a binary opcode, 3 after a unary one), every stream `q` and every bank `m`,
`Eval` over `encode is ++ q` from `m` is `Eval` over `q` from the bank that `Eval` over
`encode is` leaves (and fails where that one fails); `Eval` over the empty stream returns
the bank unchanged. -/
theorem Eval_append {α : Type} (S : Scalar α) (is : List Instruction) (q : List Nat)
    (m : List α) :
    (Eval S (encode is ++ q) m =
      match Eval S (encode is) m with
      | .error f => .error f
      | .ok m' => Eval S q m') ∧
    Eval S [] m = .ok m := by
  refine ⟨?_, rfl⟩
  induction is generalizing m with
  | nil => rfl
  | cons i is ih =>
    rw [encode, List.append_assoc, Eval_cons, Eval_cons]
    cases i.exec S m with
    | error e => rfl
    | ok m' => exact ih m'

open Operation in
/-- C3. Arity classes of the fifteen opcodes: `IsBinary` holds exactly for `Add`, `Subtract`,
`Multiply`, `Divide`, `Power`; `IsUnary` holds exactly for `Assign`, `Negate`, `Exp`, `Log`,
`Sin`, `Cos`, `Tan`, `Asin`, `Acos`, `Atan`; every opcode is in exactly one of the classes. -/
theorem arity_classification (op : Operation) :
    (IsBinary op.code = true ↔ op ∈ [Operation.Add, Subtract, Multiply, Divide, Power]) ∧
    (IsUnary op.code = true ↔
      op ∈ [Assign, Negate, Exp, Log, Sin, Cos, Tan, Asin, Acos, Atan]) ∧
    (IsUnary op.code = true ↔ ¬ IsBinary op.code = true) ∧
    op ∈ Operation.all := by
  cases op <;> decide

/-! ## Counting loops -/

theorem forLoop_invariant {σ : Type} (body : Nat → σ → Result σ)
    (Inv : Nat → σ → Prop) (n : Nat) (s : σ) (h0 : Inv 0 s)
    (hstep : ∀ k s1, k < n → Inv k s1 → ∃ s2, body k s1 = .ok s2 ∧ Inv (k + 1) s2) :
    ∃ s', forLoop body n s = .ok s' ∧ Inv n s' := by
  induction n with
  | zero => exact ⟨s, rfl, h0⟩
  | succ n ih =>
    obtain ⟨s1, h1, hi⟩ := ih (fun k s1 hk => hstep k s1 (Nat.lt_succ_of_lt hk))
    obtain ⟨s2, h2, hi2⟩ := hstep n s1 (Nat.lt_succ_self n) hi
    exact ⟨s2, by simp only [forLoop, h1, h2], hi2⟩

/-! ## The accessors -/

theorem Vec_assign_ok {α : Type} (v : Vec α) (i : Nat) (x : α) (h : i < v.size) :
    v.assign i x = .ok { v with coeff := fun k => if k = i then some x else v.coeff k } := by
  simp [Vec.assign, h]

theorem Mat_assign_ok {α : Type} (m : Mat α) (i j : Nat) (x : α) (hi : i < m.rows)
    (hj : j < m.cols) :
    m.assign i j x =
      .ok { m with coeff := fun k l => if k = i ∧ l = j then some x else m.coeff k l } := by
  simp [Mat.assign, hi, hj]

theorem copyOut_loop {α : Type} (mem : List α) (off F : Nat) (r0 : Vec α) (h0 : r0.size = F)
    (hmem : off + F ≤ mem.length) :
    ∃ r, forLoop (fun ii (r : Vec α) => statement r
        (match mem[ii + off]? with
        | some v => r.assign ii v
        | none => .error .outOfRange)) F r0 = .ok r ∧ r.size = F ∧
      ∀ i, i < F → r.coeff i = mem[i + off]? := by
  refine forLoop_invariant _
    (fun k (r : Vec α) => r.size = F ∧ ∀ i, i < k → r.coeff i = mem[i + off]?)
    F r0 ⟨h0, fun i hi => absurd hi (Nat.not_lt_zero i)⟩ ?_
  intro k r hk ⟨hs, hv⟩
  have hlt : k + off < mem.length := by omega
  simp only [List.getElem?_eq_getElem hlt]
  rw [Vec_assign_ok r k _ (by omega)]
  refine ⟨_, rfl, hs, ?_⟩
  intro i hi
  by_cases hik : i = k
  · subst hik
    simp [List.getElem?_eq_getElem hlt]
  · simp only [hik, if_false]
    exact hv i (by omega)

theorem GetFuncVals_run {α : Type} (slp : StraightLineProgram α) (result : Vec α)
    (hmem : slp.output_locations_.Functions + slp.number_of_.Functions ≤ slp.memory_.length) :
    ∃ r, slp.GetFuncVals result = .ok (r, slp) ∧ r.size = slp.number_of_.Functions ∧
      ∀ i, i < slp.number_of_.Functions →
        r.coeff i = slp.memory_[i + slp.output_locations_.Functions]? := by
  obtain ⟨r, hr, hs, hv⟩ := copyOut_loop slp.memory_ slp.output_locations_.Functions
    slp.number_of_.Functions (result.resize slp.number_of_.Functions) rfl hmem
  exact ⟨r, by simp only [StraightLineProgram.GetFuncVals, hr], hs, hv⟩

theorem GetTimeDeriv_run {α : Type} (slp : StraightLineProgram α) (result : Vec α)
    (hmem : slp.output_locations_.TimeDeriv + slp.number_of_.Functions ≤ slp.memory_.length) :
    ∃ r, slp.GetTimeDeriv result = .ok (r, slp) ∧ r.size = slp.number_of_.Functions ∧
      ∀ i, i < slp.number_of_.Functions →
        r.coeff i = slp.memory_[i + slp.output_locations_.TimeDeriv]? := by
  obtain ⟨r, hr, hs, hv⟩ := copyOut_loop slp.memory_ slp.output_locations_.TimeDeriv
    slp.number_of_.Functions (result.resize slp.number_of_.Functions) rfl hmem
  exact ⟨r, by simp only [StraightLineProgram.GetTimeDeriv, hr], hs, hv⟩

theorem jacobian_index_lt (F V i j : Nat) (hi : i < F) (hj : j < V) : i + j * F < F * V := by
  have h1 : (j + 1) * F ≤ V * F := Nat.mul_le_mul_right F hj
  have h2 : (j + 1) * F = j * F + F := Nat.succ_mul j F
  have h3 : V * F = F * V := Nat.mul_comm V F
  omega

theorem jacobian_column_loop {α : Type} (slp : StraightLineProgram α) (jj : Nat) (r0 : Mat α)
    (hjj : jj < slp.number_of_.Variables)
    (hmem : slp.output_locations_.Jacobian + slp.number_of_.Functions * slp.number_of_.Variables
      ≤ slp.memory_.length)
    (hr0 : r0.rows = slp.number_of_.Functions) (hc0 : r0.cols = slp.number_of_.Variables) :
    ∃ r, forLoop (fun ii (r : Mat α) => statement r
        (match slp.memory_[slp.jacobianSlot ii jj]? with
        | some v => r.assign ii jj v
        | none => .error .outOfRange)) slp.number_of_.Functions r0 = .ok r ∧
      r.rows = slp.number_of_.Functions ∧ r.cols = slp.number_of_.Variables ∧
      (∀ i j, j ≠ jj → r.coeff i j = r0.coeff i j) ∧
      ∀ i, i < slp.number_of_.Functions → r.coeff i jj = slp.memory_[slp.jacobianSlot i jj]? := by
  refine forLoop_invariant _
    (fun k (r : Mat α) => r.rows = slp.number_of_.Functions ∧
      r.cols = slp.number_of_.Variables ∧
      (∀ i j, j ≠ jj → r.coeff i j = r0.coeff i j) ∧
      ∀ i, i < k → r.coeff i jj = slp.memory_[slp.jacobianSlot i jj]?)
    slp.number_of_.Functions r0
    ⟨hr0, hc0, fun _ _ _ => rfl, fun i hi => absurd hi (Nat.not_lt_zero i)⟩ ?_
  intro k r hk ⟨hr, hc, hv, hcol⟩
  have hidx := jacobian_index_lt _ _ k jj hk hjj
  have hlt : slp.jacobianSlot k jj < slp.memory_.length := by
    unfold StraightLineProgram.jacobianSlot; omega
  simp only [List.getElem?_eq_getElem hlt]
  rw [Mat_assign_ok r k jj _ (by omega) (by omega)]
  refine ⟨_, rfl, hr, hc, ?_, ?_⟩
  · intro i j hj
    have hne : ¬ (i = k ∧ j = jj) := fun h => hj h.2
    simp only [hne, if_false]
    exact hv i j hj
  · intro i hi
    by_cases hik : i = k
    · subst hik
      simp [List.getElem?_eq_getElem hlt]
    · have hne : ¬ (i = k ∧ jj = jj) := fun h => hik h.1
      show (if i = k ∧ jj = jj then _ else r.coeff i jj) = _
      rw [if_neg hne]
      exact hcol i (by omega)

theorem GetJacobian_run {α : Type} (slp : StraightLineProgram α) (result : Mat α)
    (hmem : slp.output_locations_.Jacobian + slp.number_of_.Functions * slp.number_of_.Variables
      ≤ slp.memory_.length) :
    ∃ r, slp.GetJacobian result = .ok (r, slp) ∧
      r.rows = slp.number_of_.Functions ∧ r.cols = slp.number_of_.Variables ∧
      ∀ i j, i < slp.number_of_.Functions → j < slp.number_of_.Variables →
        r.coeff i j = slp.memory_[slp.jacobianSlot i j]? := by
  obtain ⟨r, hr, hrows, hcols, hval⟩ := forLoop_invariant
    (fun jj (r0 : Mat α) =>
      forLoop (fun ii r => statement r
        (match slp.memory_[slp.jacobianSlot ii jj]? with
        | some v => r.assign ii jj v
        | none => .error .outOfRange)) slp.number_of_.Functions r0)
    (fun c r => r.rows = slp.number_of_.Functions ∧ r.cols = slp.number_of_.Variables ∧
      ∀ i j, i < slp.number_of_.Functions → j < c →
        r.coeff i j = slp.memory_[slp.jacobianSlot i j]?)
    slp.number_of_.Variables
    (result.resize slp.number_of_.Functions slp.number_of_.Variables)
    ⟨rfl, rfl, fun i j _ hj => absurd hj (Nat.not_lt_zero j)⟩
    (by
      intro jj r0 hjj ⟨hr0, hc0, hv0⟩
      obtain ⟨r1, h1, hr1, hc1, hother, hcol⟩ := jacobian_column_loop slp jj r0 hjj hmem hr0 hc0
      refine ⟨r1, h1, hr1, hc1, ?_⟩
      intro i j hi hj
      by_cases hjc : j = jj
      · subst hjc
        exact hcol i hi
      · rw [hother i j hjc]
        exact hv0 i j hi (by omega))
  exact ⟨r, by simp only [StraightLineProgram.GetJacobian, hr], hrows, hcols, hval⟩

/-! ## The accessors: statements -/

/-- C4. `GetJacobian(result)`, on a bank that contains the Jacobian range of `F * V` slots:
whatever the shape of `result` was, the call returns a matrix with `F` rows and `V` columns
whose entry `(i, j)` is `memory[out.jacobian + i + j*F]` for every `i < F` and `j < V`, and
the object is returned unchanged. -/
theorem GetJacobian_spec {α : Type} (slp : StraightLineProgram α) (result : Mat α)
    (hmem : slp.output_locations_.Jacobian + slp.NumFunctions * slp.NumVariables
      ≤ slp.memory_.length) :
    ∃ r, slp.GetJacobian result = .ok (r, slp) ∧
      r.rows = slp.NumFunctions ∧ r.cols = slp.NumVariables ∧
      ∀ i j, i < slp.NumFunctions → j < slp.NumVariables →
        ∃ v, slp.memory_[slp.output_locations_.Jacobian + i + j * slp.NumFunctions]? = some v ∧
          r.coeff i j = some v := by
  unfold StraightLineProgram.NumFunctions StraightLineProgram.NumVariables at *
  obtain ⟨r, hr, hrows, hcols, hval⟩ := GetJacobian_run slp result hmem
  refine ⟨r, hr, hrows, hcols, ?_⟩
  intro i j hi hj
  have hidx := jacobian_index_lt _ _ i j hi hj
  have hlt : slp.output_locations_.Jacobian + i + j * slp.number_of_.Functions
      < slp.memory_.length := by omega
  refine ⟨slp.memory_[slp.output_locations_.Jacobian + i + j * slp.number_of_.Functions],
    List.getElem?_eq_getElem hlt, ?_⟩
  rw [hval i j hi hj, ← List.getElem?_eq_getElem hlt]
  congr 1
  unfold StraightLineProgram.jacobianSlot
  omega

/-- C4 on the bank of seven slots with a 2 by 3 Jacobian from slot 1. -/
theorem GetJacobian_spec_witness :
    (exampleOutputs.output_locations_.Jacobian
        + exampleOutputs.NumFunctions * exampleOutputs.NumVariables
      ≤ exampleOutputs.memory_.length) ∧
    ∃ r, exampleOutputs.GetJacobian emptyMat = .ok (r, exampleOutputs) ∧
      r.rows = exampleOutputs.NumFunctions ∧ r.cols = exampleOutputs.NumVariables ∧
      ∀ i j, i < exampleOutputs.NumFunctions → j < exampleOutputs.NumVariables →
        ∃ v, exampleOutputs.memory_[exampleOutputs.output_locations_.Jacobian + i
            + j * exampleOutputs.NumFunctions]? = some v ∧ r.coeff i j = some v :=
  ⟨by decide, GetJacobian_spec exampleOutputs emptyMat (by decide)⟩

/-- C5. `GetFuncVals(result)`, on a bank that contains the function range: whatever
`result` was, the call returns a vector of length `F = NumFunctions()` whose coefficient `i`
is `memory[out.functions + i]` for every `i < F`, and the object is returned unchanged. -/
theorem GetFuncVals_spec {α : Type} (slp : StraightLineProgram α) (result : Vec α)
    (hmem : slp.output_locations_.Functions + slp.NumFunctions ≤ slp.memory_.length) :
    ∃ r, slp.GetFuncVals result = .ok (r, slp) ∧ r.size = slp.NumFunctions ∧
      ∀ i, i < slp.NumFunctions →
        ∃ v, slp.memory_[slp.output_locations_.Functions + i]? = some v ∧
          r.coeff i = some v := by
  unfold StraightLineProgram.NumFunctions at *
  obtain ⟨r, hr, hs, hval⟩ := GetFuncVals_run slp result hmem
  refine ⟨r, hr, hs, ?_⟩
  intro i hi
  have hlt : slp.output_locations_.Functions + i < slp.memory_.length := by omega
  refine ⟨slp.memory_[slp.output_locations_.Functions + i], List.getElem?_eq_getElem hlt, ?_⟩
  rw [hval i hi, ← List.getElem?_eq_getElem hlt, Nat.add_comm]

/-- C5 on the bank of seven slots with two function values from slot 0. -/
theorem GetFuncVals_spec_witness :
    (exampleOutputs.output_locations_.Functions + exampleOutputs.NumFunctions
      ≤ exampleOutputs.memory_.length) ∧
    ∃ r, exampleOutputs.GetFuncVals emptyVec = .ok (r, exampleOutputs) ∧
      r.size = exampleOutputs.NumFunctions ∧
      ∀ i, i < exampleOutputs.NumFunctions →
        ∃ v, exampleOutputs.memory_[exampleOutputs.output_locations_.Functions + i]? = some v ∧
          r.coeff i = some v :=
  ⟨by decide, GetFuncVals_spec exampleOutputs emptyVec (by decide)⟩

theorem forLoop_statement_error {σ : Type} (f : Nat → σ → Except SLPError σ) (n : Nat) (s : σ)
    (hf : ∀ k s1 e, f k s1 = .error e → e = SLPError.outOfRange) (e : SLPError) (s' : σ)
    (h : forLoop (fun k s1 => statement s1 (f k s1)) n s = .error (e, s')) :
    e = SLPError.outOfRange := by
  induction n with
  | zero => simp [forLoop] at h
  | succ n ih =>
    simp only [forLoop] at h
    cases hn : forLoop (fun k s1 => statement s1 (f k s1)) n s with
    | error g =>
      rw [hn] at h
      simp only [Except.error.injEq] at h
      subst h
      exact ih hn
    | ok s1 =>
      rw [hn] at h
      simp only [statement] at h
      cases hb : f n s1 with
      | error e1 =>
        rw [hb] at h
        simp only [Except.error.injEq, Prod.mk.injEq] at h
        rw [← h.1]
        exact hf n s1 e1 hb
      | ok s2 =>
        rw [hb] at h
        simp at h

theorem Vec_assign_error {α : Type} (v : Vec α) (i : Nat) (x : α) (e : SLPError)
    (h : v.assign i x = .error e) : e = SLPError.outOfRange := by
  unfold Vec.assign at h
  split at h
  · simp at h
  · simp only [Except.error.injEq] at h
    exact h.symm

theorem GetTimeDeriv_error {α : Type} (slp : StraightLineProgram α) (result : Vec α)
    (e : SLPError) (h : slp.GetTimeDeriv result = .error e) : e = SLPError.outOfRange := by
  unfold StraightLineProgram.GetTimeDeriv at h
  split at h
  · rename_i e1 s1 heq
    simp only [Except.error.injEq] at h
    subst h
    refine forLoop_statement_error
      (fun ii (r : Vec α) =>
        match slp.memory_[ii + slp.output_locations_.TimeDeriv]? with
        | some v => r.assign ii v
        | none => .error .outOfRange) _ _ ?_ e1 s1 heq
    intro k r e2 he2
    dsimp only at he2
    split at he2
    · exact Vec_assign_error _ _ _ _ he2
    · simp only [Except.error.injEq] at he2
      exact he2.symm
  · simp at h

/-- C11 (as amended). `GetTimeDeriv` does not consult `has_path_variable_`: for every object
without a path variable whose range `[out.time_deriv, out.time_deriv + F)` lies in the bank,
the call returns the vector of the `F` scalars of that range; and on no object at all does
it throw a `std::runtime_error`. -/
theorem GetTimeDeriv_without_path_variable {α : Type} (slp : StraightLineProgram α)
    (result : Vec α) (hno : slp.has_path_variable_ = false) :
    (slp.output_locations_.TimeDeriv + slp.NumFunctions ≤ slp.memory_.length →
      ∃ r, slp.GetTimeDeriv result = .ok (r, slp) ∧ r.size = slp.NumFunctions ∧
        ∀ i, i < slp.NumFunctions →
          r.coeff i = slp.memory_[slp.output_locations_.TimeDeriv + i]?) ∧
    ∀ msg, slp.GetTimeDeriv result ≠ .error (.runtimeError msg) := by
  have _ := hno
  refine ⟨fun hmem => ?_, fun msg h => ?_⟩
  · obtain ⟨r, hr, hs, hval⟩ := GetTimeDeriv_run slp result hmem
    refine ⟨r, hr, hs, fun i hi => ?_⟩
    rw [hval i hi, Nat.add_comm]
  · have := GetTimeDeriv_error slp result _ h
    simp at this

/-- C11 (as amended) on the object without a path variable. -/
theorem GetTimeDeriv_without_path_variable_witness :
    exampleOutputs.has_path_variable_ = false ∧
    ((exampleOutputs.output_locations_.TimeDeriv + exampleOutputs.NumFunctions
        ≤ exampleOutputs.memory_.length →
      ∃ r, exampleOutputs.GetTimeDeriv emptyVec = .ok (r, exampleOutputs) ∧
        r.size = exampleOutputs.NumFunctions ∧
        ∀ i, i < exampleOutputs.NumFunctions →
          r.coeff i = exampleOutputs.memory_[exampleOutputs.output_locations_.TimeDeriv + i]?) ∧
    ∀ msg, exampleOutputs.GetTimeDeriv emptyVec ≠ .error (.runtimeError msg)) :=
  ⟨rfl, GetTimeDeriv_without_path_variable exampleOutputs emptyVec rfl⟩

/-- C11, refuted as stated: on the object without a path variable, with two functions and
the time-derivative range at slots 5 and 6, `GetTimeDeriv` raises nothing and returns the
vector of the two values stored there. -/
theorem GetTimeDeriv_returns_without_path_variable :
    exampleOutputs.has_path_variable_ = false ∧
    ∃ r, exampleOutputs.GetTimeDeriv emptyVec = .ok (r, exampleOutputs) ∧ r.size = 2 ∧
      r.coeff 0 = some (Sym.val 5) ∧ r.coeff 1 = some (Sym.val 6) := by
  obtain ⟨r, hr, hs, hval⟩ := GetTimeDeriv_run exampleOutputs emptyVec (by decide)
  exact ⟨rfl, r, hr, hs, hval 0 (by decide), hval 1 (by decide)⟩

/-- C12. `GetTimeDeriv(result)`, on an object with a path variable whose time-derivative
range lies in the bank: whatever `result` was, the call returns a vector of length
`F = NumFunctions()` whose coefficient `i` is `memory[out.time_deriv + i]` for every `i < F`,
and the object is returned unchanged. -/
theorem GetTimeDeriv_spec {α : Type} (slp : StraightLineProgram α) (result : Vec α)
    (hpath : slp.has_path_variable_ = true)
    (hmem : slp.output_locations_.TimeDeriv + slp.NumFunctions ≤ slp.memory_.length) :
    ∃ r, slp.GetTimeDeriv result = .ok (r, slp) ∧ r.size = slp.NumFunctions ∧
      ∀ i, i < slp.NumFunctions →
        ∃ v, slp.memory_[slp.output_locations_.TimeDeriv + i]? = some v ∧
          r.coeff i = some v := by
  have _ := hpath
  unfold StraightLineProgram.NumFunctions at *
  obtain ⟨r, hr, hs, hval⟩ := GetTimeDeriv_run slp result hmem
  refine ⟨r, hr, hs, ?_⟩
  intro i hi
  have hlt : slp.output_locations_.TimeDeriv + i < slp.memory_.length := by omega
  refine ⟨slp.memory_[slp.output_locations_.TimeDeriv + i], List.getElem?_eq_getElem hlt, ?_⟩
  rw [hval i hi, ← List.getElem?_eq_getElem hlt, Nat.add_comm]

/-- C12 on the object with a path variable. -/
theorem GetTimeDeriv_spec_witness :
    exampleOutputsWithPath.has_path_variable_ = true ∧
    (exampleOutputsWithPath.output_locations_.TimeDeriv + exampleOutputsWithPath.NumFunctions
      ≤ exampleOutputsWithPath.memory_.length) ∧
    ∃ r, exampleOutputsWithPath.GetTimeDeriv emptyVec = .ok (r, exampleOutputsWithPath) ∧
      r.size = exampleOutputsWithPath.NumFunctions ∧
      ∀ i, i < exampleOutputsWithPath.NumFunctions →
        ∃ v, exampleOutputsWithPath.memory_[exampleOutputsWithPath.output_locations_.TimeDeriv
            + i]? = some v ∧ r.coeff i = some v :=
  ⟨rfl, by decide, GetTimeDeriv_spec exampleOutputsWithPath emptyVec rfl (by decide)⟩

/-- C13, the code at any object: `HavePathVariable()` throws "calling unimplemented function
HavePathVariable" whatever `has_path_variable_` is; it returns neither `true` nor `false`. -/
theorem HavePathVariable_throws {α : Type} (slp : StraightLineProgram α) :
    slp.HavePathVariable =
      .error (.runtimeError "calling unimplemented function HavePathVariable") ∧
    ∀ b, slp.HavePathVariable ≠ .ok b := by
  refine ⟨rfl, fun b h => ?_⟩
  simp [StraightLineProgram.HavePathVariable] at h

/-- C14, refuted as stated: with two functions and three variables and the Jacobian range
from slot 1, the entry `(0, 1)` that `GetJacobian` returns is the value of slot
`out.jacobian + 0 + 1*F = 3`, not that of the row-major slot `out.jacobian + 0*V + 1 = 2`. -/
theorem GetJacobian_not_row_major :
    ∃ r, exampleOutputs.GetJacobian emptyMat = .ok (r, exampleOutputs) ∧
      r.coeff 0 1 = some (Sym.val 3) ∧
      exampleOutputs.memory_[exampleOutputs.output_locations_.Jacobian
        + 0 * exampleOutputs.NumVariables + 1]? = some (Sym.val 2) ∧
      r.coeff 0 1 ≠ exampleOutputs.memory_[exampleOutputs.output_locations_.Jacobian
        + 0 * exampleOutputs.NumVariables + 1]? := by
  obtain ⟨r, hr, _, _, hval⟩ := GetJacobian_run exampleOutputs emptyMat (by decide)
  have h01 : r.coeff 0 1 = some (Sym.val 3) := hval 0 1 (by decide) (by decide)
  refine ⟨r, hr, h01, rfl, ?_⟩
  rw [h01]
  decide

/-- C14 (as amended). The Jacobian output range of length `F * V` is laid out column-major:
with the range inside the bank, the value `GetJacobian` returns at `(i, j)` is the one stored
at `out.jacobian + j*F + i`, so the entries of one column (one variable `j`, consecutive
functions `i`) occupy consecutive slots. -/
theorem GetJacobian_column_major {α : Type} (slp : StraightLineProgram α) (result : Mat α)
    (hmem : slp.output_locations_.Jacobian + slp.NumFunctions * slp.NumVariables
      ≤ slp.memory_.length) :
    ∃ r, slp.GetJacobian result = .ok (r, slp) ∧
      ∀ i j, i < slp.NumFunctions → j < slp.NumVariables →
        r.coeff i j = slp.memory_[slp.output_locations_.Jacobian + j * slp.NumFunctions + i]? ∧
        (i + 1 < slp.NumFunctions →
          r.coeff (i + 1) j
            = slp.memory_[slp.output_locations_.Jacobian + j * slp.NumFunctions + i + 1]?) := by
  unfold StraightLineProgram.NumFunctions StraightLineProgram.NumVariables at *
  obtain ⟨r, hr, _, _, hval⟩ := GetJacobian_run slp result hmem
  refine ⟨r, hr, fun i j hi hj => ⟨?_, fun hi1 => ?_⟩⟩
  · rw [hval i j hi hj]
    congr 1
    unfold StraightLineProgram.jacobianSlot
    omega
  · rw [hval (i + 1) j hi1 hj]
    congr 1
    unfold StraightLineProgram.jacobianSlot
    omega

/-- C14 (as amended) on the object with a 2 by 3 Jacobian from slot 1. -/
theorem GetJacobian_column_major_witness :
    (exampleOutputs.output_locations_.Jacobian
        + exampleOutputs.NumFunctions * exampleOutputs.NumVariables
      ≤ exampleOutputs.memory_.length) ∧
    ∃ r, exampleOutputs.GetJacobian emptyMat = .ok (r, exampleOutputs) ∧
      ∀ i j, i < exampleOutputs.NumFunctions → j < exampleOutputs.NumVariables →
        r.coeff i j = exampleOutputs.memory_[exampleOutputs.output_locations_.Jacobian
          + j * exampleOutputs.NumFunctions + i]? ∧
        (i + 1 < exampleOutputs.NumFunctions →
          r.coeff (i + 1) j = exampleOutputs.memory_[exampleOutputs.output_locations_.Jacobian
            + j * exampleOutputs.NumFunctions + i + 1]?) :=
  ⟨by decide, GetJacobian_column_major exampleOutputs emptyMat (by decide)⟩

/-- C18. The slots `GetJacobian` reads: for every object with `F` functions and `V`
variables, the index expression `(i, j) -> out.jacobian + (i + j*F)` maps `[0, F) x [0, V)`
into the range of `F * V` slots from `out.jacobian`, is injective there (no slot is read for
two entries), and reaches every slot of the range. -/
theorem jacobianSlot_bijection {α : Type} (slp : StraightLineProgram α) :
    (∀ i j, i < slp.NumFunctions → j < slp.NumVariables →
      slp.output_locations_.Jacobian ≤ slp.jacobianSlot i j ∧
      slp.jacobianSlot i j
        < slp.output_locations_.Jacobian + slp.NumFunctions * slp.NumVariables) ∧
    (∀ i j i' j', i < slp.NumFunctions → i' < slp.NumFunctions →
      slp.jacobianSlot i j = slp.jacobianSlot i' j' → i = i' ∧ j = j') ∧
    (∀ k, k < slp.NumFunctions * slp.NumVariables →
      ∃ i j, i < slp.NumFunctions ∧ j < slp.NumVariables ∧
        slp.jacobianSlot i j = slp.output_locations_.Jacobian + k) := by
  unfold StraightLineProgram.NumFunctions StraightLineProgram.NumVariables
    StraightLineProgram.jacobianSlot
  generalize slp.number_of_.Functions = F
  generalize slp.number_of_.Variables = V
  generalize slp.output_locations_.Jacobian = J
  refine ⟨fun i j hi hj => ?_, fun i j i' j' hi hi' h => ?_, fun k hk => ?_⟩
  · have := jacobian_index_lt F V i j hi hj
    omega
  · have h1 : i + F * j = i' + F * j' := by
      rw [Nat.mul_comm F j, Nat.mul_comm F j']; omega
    have hm : (i + F * j) % F = (i' + F * j') % F := by rw [h1]
    rw [Nat.add_mul_mod_self_left, Nat.add_mul_mod_self_left, Nat.mod_eq_of_lt hi,
      Nat.mod_eq_of_lt hi'] at hm
    subst hm
    have hF : 0 < F := by omega
    have h2 : F * j = F * j' := by omega
    exact ⟨rfl, Nat.eq_of_mul_eq_mul_left hF h2⟩
  · have hF : 0 < F := by
      rcases Nat.eq_zero_or_pos F with h0 | h0
      · subst h0; simp at hk
      · exact h0
    refine ⟨k % F, k / F, Nat.mod_lt k hF, ?_, ?_⟩
    · exact (Nat.div_lt_iff_lt_mul hF).mpr (by rw [Nat.mul_comm]; exact hk)
    · have := Nat.mod_add_div k F
      rw [Nat.mul_comm F (k / F)] at this
      omega

/-! ## Steps of complete instructions -/

theorem exec_cases {α : Type} (S : Scalar α) (i : Instruction) (m : List α) :
    (i.exec S m = .error .outOfRange) ∨
    ∃ v, i.exec S m = .ok (m.set i.dst v) ∧ i.dst < m.length ∧
      ∀ s ∈ i.sources, s < m.length := by
  unfold Instruction.exec Instruction.sources writeMem
  cases hU : IsUnary i.op.code
  · simp only [Bool.false_eq_true, if_false]
    cases h1 : m[i.src1]? with
    | none => exact Or.inl rfl
    | some a =>
      cases h2 : m[i.src2]? with
      | none => exact Or.inl rfl
      | some b =>
        simp only
        by_cases hd : i.dst < m.length
        · rw [if_pos hd]
          refine Or.inr ⟨_, rfl, hd, ?_⟩
          intro s hs
          simp only [List.mem_cons, List.mem_singleton, List.not_mem_nil, or_false] at hs
          rcases hs with rfl | rfl
          · exact (List.getElem?_eq_some.mp h1).1
          · exact (List.getElem?_eq_some.mp h2).1
        · rw [if_neg hd]; exact Or.inl rfl
  · simp only [if_true]
    cases h1 : m[i.src1]? with
    | none => exact Or.inl rfl
    | some a =>
      simp only
      by_cases hd : i.dst < m.length
      · rw [if_pos hd]
        refine Or.inr ⟨_, rfl, hd, ?_⟩
        intro s hs
        simp only [List.mem_singleton] at hs
        subst hs
        exact (List.getElem?_eq_some.mp h1).1
      · rw [if_neg hd]; exact Or.inl rfl

theorem exec_ok_of_inBounds {α : Type} (S : Scalar α) (i : Instruction) (m : List α)
    (h : i.inBounds m.length) : ∃ v, i.exec S m = .ok (m.set i.dst v) := by
  obtain ⟨hs, hd⟩ := h
  unfold Instruction.exec writeMem
  unfold Instruction.sources at hs
  cases hU : IsUnary i.op.code
  · rw [hU] at hs
    simp only [Bool.false_eq_true, if_false] at hs ⊢
    have h1 : i.src1 < m.length := hs _ (by simp)
    have h2 : i.src2 < m.length := hs _ (by simp)
    simp only [List.getElem?_eq_getElem h1, List.getElem?_eq_getElem h2, if_pos hd]
    exact ⟨_, rfl⟩
  · rw [hU] at hs
    simp only [if_true] at hs ⊢
    have h1 : i.src1 < m.length := hs _ (by simp)
    simp only [List.getElem?_eq_getElem h1, if_pos hd]
    exact ⟨_, rfl⟩

theorem execAll_ok_of_inBounds {α : Type} (S : Scalar α) (is : List Instruction) (m : List α)
    (h : ∀ i ∈ is, i.inBounds m.length) : ∃ m', execAll S is m = .ok m' := by
  induction is generalizing m with
  | nil => exact ⟨m, rfl⟩
  | cons i is ih =>
    obtain ⟨v, hv⟩ := exec_ok_of_inBounds S i m (h i (List.mem_cons_self i is))
    simp only [execAll, hv]
    apply ih
    intro j hj
    rw [List.length_set]
    exact h j (List.mem_cons_of_mem i hj)

theorem execAll_frame {α : Type} (S : Scalar α) (is : List Instruction) (m m' : List α)
    (h : execAll S is m = .ok m') :
    m'.length = m.length ∧ ∀ s, (∀ i ∈ is, i.dst ≠ s) → m'[s]? = m[s]? := by
  induction is generalizing m with
  | nil =>
    simp only [execAll, Except.ok.injEq] at h
    subst h
    exact ⟨rfl, fun _ _ => rfl⟩
  | cons i is ih =>
    rcases exec_cases S i m with he | ⟨v, hv, -, -⟩
    · simp [execAll, he] at h
    · simp only [execAll, hv] at h
      obtain ⟨hl, hf⟩ := ih _ h
      refine ⟨by rw [hl, List.length_set], fun s hs => ?_⟩
      rw [hf s (fun j hj => hs j (List.mem_cons_of_mem i hj))]
      exact List.getElem?_set_ne (hs i (List.mem_cons_self i is))

/-- C8. Bounds safety of the hot loop: on a stream that is a concatenation of complete
instructions, each starting with one of the fifteen opcodes, whose source and destination
slots are all below the bank length, `Eval` ends with a bank; in particular no read of the
instruction stream at or past its end and no index outside the bank occurs, either of which
is the failure `outOfRange` of the embedding. -/
theorem Eval_in_bounds {α : Type} (S : Scalar α) (is : List Instruction) (m : List α)
    (h : ∀ i ∈ is, i.inBounds m.length) :
    (∃ m', Eval S (encode is) m = .ok m') ∧
    ∀ m'', Eval S (encode is) m ≠ .error (SLPError.outOfRange, m'') := by
  obtain ⟨m', hm'⟩ := execAll_ok_of_inBounds S is m h
  rw [Eval_encode, hm']
  exact ⟨⟨m', rfl⟩, fun m'' hne => by simp at hne⟩

/-- C8 on the three instructions of `exampleProgram` and a bank of four slots. -/
theorem Eval_in_bounds_witness :
    (∀ i ∈ exampleProgram, i.inBounds [Sym.val 0, Sym.val 1, Sym.val 2, Sym.val 3].length) ∧
    ((∃ m', Eval symScalar (encode exampleProgram)
        [Sym.val 0, Sym.val 1, Sym.val 2, Sym.val 3] = .ok m') ∧
    ∀ m'', Eval symScalar (encode exampleProgram) [Sym.val 0, Sym.val 1, Sym.val 2, Sym.val 3]
      ≠ .error (SLPError.outOfRange, m'')) :=
  ⟨by decide, Eval_in_bounds symScalar exampleProgram _ (by decide)⟩

/-- C17. `Eval` writes only destination slots and never grows the bank: on a stream of
complete instructions with in-bounds slots, the bank after `Eval` has the length of the bank
before and agrees with it on every slot that is not the destination of an instruction; in
particular a range of slots `[lo, lo + n)` (the variable or time inputs) that contains no
destination is still as it was written before `Eval`. -/
theorem Eval_frame {α : Type} (S : Scalar α) (is : List Instruction) (m : List α)
    (h : ∀ i ∈ is, i.inBounds m.length) :
    ∃ m', Eval S (encode is) m = .ok m' ∧ m'.length = m.length ∧
      (∀ s, (∀ i ∈ is, i.dst ≠ s) → m'[s]? = m[s]?) ∧
      ∀ lo n, (∀ i ∈ is, i.dst < lo ∨ lo + n ≤ i.dst) →
        ∀ s, lo ≤ s → s < lo + n → m'[s]? = m[s]? := by
  obtain ⟨m', hm'⟩ := execAll_ok_of_inBounds S is m h
  obtain ⟨hl, hf⟩ := execAll_frame S is m m' hm'
  refine ⟨m', by rw [Eval_encode, hm'], hl, hf, ?_⟩
  intro lo n hdst s hlo hhi
  apply hf
  intro i hi heq
  have := hdst i hi
  omega

/-- C17 on the three instructions of `exampleProgram` and a bank of four slots. -/
theorem Eval_frame_witness :
    (∀ i ∈ exampleProgram, i.inBounds [Sym.val 0, Sym.val 1, Sym.val 2, Sym.val 3].length) ∧
    ∃ m', Eval symScalar (encode exampleProgram) [Sym.val 0, Sym.val 1, Sym.val 2, Sym.val 3]
        = .ok m' ∧
      m'.length = [Sym.val 0, Sym.val 1, Sym.val 2, Sym.val 3].length ∧
      (∀ s, (∀ i ∈ exampleProgram, i.dst ≠ s) →
        m'[s]? = [Sym.val 0, Sym.val 1, Sym.val 2, Sym.val 3][s]?) ∧
      ∀ lo n, (∀ i ∈ exampleProgram, i.dst < lo ∨ lo + n ≤ i.dst) →
        ∀ s, lo ≤ s → s < lo + n →
          m'[s]? = [Sym.val 0, Sym.val 1, Sym.val 2, Sym.val 3][s]? :=
  ⟨by decide, Eval_frame symScalar exampleProgram _ (by decide)⟩

theorem exec_agree {α : Type} (S : Scalar α) (i : Instruction) (m1 m2 : List α)
    (hlen : m1.length = m2.length) (hs : ∀ s ∈ i.sources, m1[s]? = m2[s]?) :
    (i.exec S m1 = .error .outOfRange ∧ i.exec S m2 = .error .outOfRange) ∨
    ∃ v, i.exec S m1 = .ok (m1.set i.dst v) ∧ i.exec S m2 = .ok (m2.set i.dst v) ∧
      i.dst < m1.length := by
  unfold Instruction.exec writeMem
  unfold Instruction.sources at hs
  cases hU : IsUnary i.op.code
  · rw [hU] at hs
    simp only [Bool.false_eq_true, if_false] at hs ⊢
    rw [hs i.src1 (by simp), hs i.src2 (by simp), hlen]
    cases m2[i.src1]? with
    | none => exact Or.inl ⟨rfl, rfl⟩
    | some a =>
      cases m2[i.src2]? with
      | none => exact Or.inl ⟨rfl, rfl⟩
      | some b =>
        simp only
        by_cases hd : i.dst < m2.length
        · simp only [if_pos hd]
          exact Or.inr ⟨_, rfl, rfl, hd⟩
        · simp only [if_neg hd]
          exact Or.inl ⟨trivial, trivial⟩
  · rw [hU] at hs
    simp only [if_true] at hs ⊢
    rw [hs i.src1 (by simp), hlen]
    cases m2[i.src1]? with
    | none => exact Or.inl ⟨rfl, rfl⟩
    | some a =>
      simp only
      by_cases hd : i.dst < m2.length
      · simp only [if_pos hd]
        exact Or.inr ⟨_, rfl, rfl, hd⟩
      · simp only [if_neg hd]
        exact Or.inl ⟨trivial, trivial⟩

theorem execAll_agree {α : Type} (S : Scalar α) (P : Nat → Bool) (is : List Instruction)
    (avail : List Nat) (m1 m2 : List α) (hwf : wellSourced P avail is = true)
    (hlen : m1.length = m2.length)
    (hagree : ∀ s, P s = true ∨ s ∈ avail → m1[s]? = m2[s]?) :
    agreeOn (fun s => P s = true ∨ s ∈ avail ∨ ∃ i ∈ is, i.dst = s)
      (execAll S is m1) (execAll S is m2) := by
  induction is generalizing avail m1 m2 with
  | nil =>
    refine ⟨hlen, fun s hs => hagree s ?_⟩
    rcases hs with h | h | ⟨i, hi, _⟩
    · exact Or.inl h
    · exact Or.inr h
    · cases hi
  | cons i is ih =>
    simp only [wellSourced, Instruction.wellSourced, Bool.and_eq_true, List.all_eq_true,
      Bool.or_eq_true, decide_eq_true_eq, Bool.not_eq_true'] at hwf
    obtain ⟨⟨hsrc, -⟩, hrest⟩ := hwf
    have hs : ∀ s ∈ i.sources, m1[s]? = m2[s]? := fun s hsi => hagree s (hsrc s hsi)
    rcases exec_agree S i m1 m2 hlen hs with ⟨h1, h2⟩ | ⟨v, h1, h2, hd⟩
    · simp only [execAll, h1, h2, agreeOn]
    · simp only [execAll, h1, h2]
      have key := ih (i.dst :: avail) (m1.set i.dst v) (m2.set i.dst v) hrest
        (by simp only [List.length_set, hlen])
        (by
          intro s hsA
          by_cases hsd : i.dst = s
          · subst hsd
            rw [List.getElem?_set_self hd, List.getElem?_set_self (hlen ▸ hd)]
          · rw [List.getElem?_set_ne hsd, List.getElem?_set_ne hsd]
            apply hagree
            rcases hsA with h | h
            · exact Or.inl h
            · rcases List.mem_cons.mp h with h | h
              · exact absurd h.symm hsd
              · exact Or.inr h)
      revert key
      cases execAll S is (m1.set i.dst v) with
      | error f1 =>
        cases execAll S is (m2.set i.dst v) with
        | error f2 => exact fun k => k
        | ok r2 => exact fun k => k
      | ok r1 =>
        cases execAll S is (m2.set i.dst v) with
        | error f2 => exact fun k => k
        | ok r2 =>
          intro ⟨kl, ka⟩
          refine ⟨kl, fun s hsA => ka s ?_⟩
          rcases hsA with h | h | ⟨j, hj, hjd⟩
          · exact Or.inl h
          · exact Or.inr (Or.inl (List.mem_cons_of_mem _ h))
          · rcases List.mem_cons.mp hj with h | h
            · subst h
              exact Or.inr (Or.inl (hjd ▸ List.mem_cons_self _ _))
            · exact Or.inr (Or.inr ⟨j, h, hjd⟩)

theorem wellSourced_dst {P : Nat → Bool} {is : List Instruction} {avail : List Nat}
    (hwf : wellSourced P avail is = true) : ∀ i ∈ is, P i.dst = false := by
  induction is generalizing avail with
  | nil => intro i hi; cases hi
  | cons j is ih =>
    simp only [wellSourced, Instruction.wellSourced, Bool.and_eq_true,
      Bool.not_eq_true'] at hwf
    intro i hi
    rcases List.mem_cons.mp hi with h | h
    · subst h; exact hwf.1.2
    · exact ih hwf.2 i h

/-- C7. Determinism of `Eval`: on a stream of complete instructions in which no destination
is a protected (input or constant) slot and every source is a protected slot or the
destination of an earlier instruction, two runs started from banks of one length that agree
on the protected slots have the same outcome: both end in banks that agree on the protected
slots and on every slot written by an instruction, or both fail alike; with in-bounds slots
both end in such banks.  In particular a second run on the bank left by a first run returns
that bank unchanged. -/
theorem Eval_deterministic {α : Type} (S : Scalar α) (P : Nat → Bool)
    (is : List Instruction) (m1 m2 : List α) (hwf : wellSourced P [] is = true)
    (hlen : m1.length = m2.length) (hagree : ∀ s, P s = true → m1[s]? = m2[s]?) :
    agreeOn (fun s => P s = true ∨ ∃ i ∈ is, i.dst = s)
      (Eval S (encode is) m1) (Eval S (encode is) m2) ∧
    ((∀ i ∈ is, i.inBounds m1.length) →
      ∃ r1 r2, Eval S (encode is) m1 = .ok r1 ∧ Eval S (encode is) m2 = .ok r2 ∧
        ∀ s, (P s = true ∨ ∃ i ∈ is, i.dst = s) → r1[s]? = r2[s]?) ∧
    ∀ r, Eval S (encode is) m1 = .ok r → Eval S (encode is) r = .ok r := by
  have hdet : ∀ a b : List α, a.length = b.length → (∀ s, P s = true → a[s]? = b[s]?) →
      agreeOn (fun s => P s = true ∨ ∃ i ∈ is, i.dst = s)
        (execAll S is a) (execAll S is b) := by
    intro a b hl ha
    have key := execAll_agree S P is [] a b hwf hl (fun s hs => by
      rcases hs with h | h
      · exact ha s h
      · cases h)
    revert key
    cases execAll S is a with
    | error f1 =>
      cases execAll S is b with
      | error f2 => exact fun k => k
      | ok r2 => exact fun k => k
    | ok r1 =>
      cases execAll S is b with
      | error f2 => exact fun k => k
      | ok r2 =>
        intro ⟨kl, ka⟩
        refine ⟨kl, fun s hs => ka s ?_⟩
        rcases hs with h | h
        · exact Or.inl h
        · exact Or.inr (Or.inr h)
  simp only [Eval_encode]
  refine ⟨hdet m1 m2 hlen hagree, fun hb => ?_, fun r hr => ?_⟩
  · obtain ⟨r1, h1⟩ := execAll_ok_of_inBounds S is m1 hb
    obtain ⟨r2, h2⟩ := execAll_ok_of_inBounds S is m2 (hlen ▸ hb)
    have key := hdet m1 m2 hlen hagree
    rw [h1, h2] at key
    exact ⟨r1, r2, h1, h2, key.2⟩
  obtain ⟨hl, hf⟩ := execAll_frame S is m1 r hr
  have hPr : ∀ s, P s = true → m1[s]? = r[s]? := by
    intro s hs
    symm
    apply hf
    intro i hi heq
    have := wellSourced_dst hwf i hi
    rw [heq, hs] at this
    exact Bool.noConfusion this
  have key := hdet m1 r hl.symm hPr
  rw [hr] at key
  cases hr2 : execAll S is r with
  | error f2 => rw [hr2] at key; exact key.elim
  | ok r2 =>
    rw [hr2] at key
    obtain ⟨kl, ka⟩ := key
    obtain ⟨-, hf2⟩ := execAll_frame S is r r2 hr2
    congr 1
    apply List.ext_getElem?
    intro s
    by_cases hs : ∃ i ∈ is, i.dst = s
    · exact (ka s (Or.inr hs)).symm
    · apply hf2
      intro i hi heq
      exact hs ⟨i, hi, heq⟩

/-- C7 on `exampleProgram`, from two banks that differ outside the input slots 0 and 1. -/
theorem Eval_deterministic_witness :
    wellSourced exampleInputs [] exampleProgram = true ∧
    ([Sym.val 0, Sym.val 1, Sym.val 2, Sym.val 3].length
      = [Sym.val 0, Sym.val 1, Sym.val 8, Sym.val 9].length) ∧
    (∀ s, exampleInputs s = true →
      [Sym.val 0, Sym.val 1, Sym.val 2, Sym.val 3][s]?
        = [Sym.val 0, Sym.val 1, Sym.val 8, Sym.val 9][s]?) ∧
    (agreeOn (fun s => exampleInputs s = true ∨ ∃ i ∈ exampleProgram, i.dst = s)
      (Eval symScalar (encode exampleProgram) [Sym.val 0, Sym.val 1, Sym.val 2, Sym.val 3])
      (Eval symScalar (encode exampleProgram) [Sym.val 0, Sym.val 1, Sym.val 8, Sym.val 9]) ∧
    ((∀ i ∈ exampleProgram, i.inBounds [Sym.val 0, Sym.val 1, Sym.val 2, Sym.val 3].length) →
      ∃ r1 r2,
        Eval symScalar (encode exampleProgram) [Sym.val 0, Sym.val 1, Sym.val 2, Sym.val 3]
          = .ok r1 ∧
        Eval symScalar (encode exampleProgram) [Sym.val 0, Sym.val 1, Sym.val 8, Sym.val 9]
          = .ok r2 ∧
        ∀ s, (exampleInputs s = true ∨ ∃ i ∈ exampleProgram, i.dst = s) → r1[s]? = r2[s]?) ∧
    ∀ r, Eval symScalar (encode exampleProgram) [Sym.val 0, Sym.val 1, Sym.val 2, Sym.val 3]
        = .ok r → Eval symScalar (encode exampleProgram) r = .ok r) :=
  have hagree : ∀ s, exampleInputs s = true →
      [Sym.val 0, Sym.val 1, Sym.val 2, Sym.val 3][s]?
        = [Sym.val 0, Sym.val 1, Sym.val 8, Sym.val 9][s]? := by
    intro s hs
    simp only [exampleInputs, decide_eq_true_eq] at hs
    interval_cases s <;> rfl
  ⟨by decide, rfl, hagree,
    Eval_deterministic symScalar exampleInputs exampleProgram _ _ (by decide) rfl hagree⟩

/-! ## Termination and words that are no opcode -/

theorem binaryCase_error {α : Type} (f : α → α → α) (instr : List Nat) (ii : Nat)
    (m : List α) (e : SLPError) (h : binaryCase f instr ii m = .error e) :
    e = SLPError.outOfRange := by
  unfold binaryCase writeMem at h
  split at h
  · split at h
    · split at h
      · simp at h
      · simp only [Except.error.injEq] at h; exact h.symm
    · simp only [Except.error.injEq] at h; exact h.symm
  · simp only [Except.error.injEq] at h; exact h.symm

theorem unaryCase_error {α : Type} (f : α → α) (instr : List Nat) (ii : Nat)
    (m : List α) (e : SLPError) (h : unaryCase f instr ii m = .error e) :
    e = SLPError.outOfRange := by
  unfold unaryCase writeMem at h
  split at h
  · split at h
    · split at h
      · simp at h
      · simp only [Except.error.injEq] at h; exact h.symm
    · simp only [Except.error.injEq] at h; exact h.symm
  · simp only [Except.error.injEq] at h; exact h.symm

theorem switchBody_cases {α : Type} (S : Scalar α) (instr : List Nat) (ii w : Nat)
    (m : List α) :
    ((∀ op : Operation, w ≠ op.code) ∧ switchBody S instr ii w m = .ok m) ∨
    (∃ f : α → α → α, switchBody S instr ii w m = binaryCase f instr ii m) ∨
    (∃ f : α → α, switchBody S instr ii w m = unaryCase f instr ii m) := by
  unfold switchBody
  by_cases h0 : w = Operation.Add.code
  · rw [if_pos h0]; exact Or.inr (Or.inl ⟨_, rfl⟩)
  rw [if_neg h0]
  by_cases h1 : w = Operation.Subtract.code
  · rw [if_pos h1]; exact Or.inr (Or.inl ⟨_, rfl⟩)
  rw [if_neg h1]
  by_cases h2 : w = Operation.Multiply.code
  · rw [if_pos h2]; exact Or.inr (Or.inl ⟨_, rfl⟩)
  rw [if_neg h2]
  by_cases h3 : w = Operation.Divide.code
  · rw [if_pos h3]; exact Or.inr (Or.inl ⟨_, rfl⟩)
  rw [if_neg h3]
  by_cases h4 : w = Operation.Power.code
  · rw [if_pos h4]; exact Or.inr (Or.inl ⟨_, rfl⟩)
  rw [if_neg h4]
  by_cases h5 : w = Operation.Assign.code
  · rw [if_pos h5]; exact Or.inr (Or.inr ⟨_, rfl⟩)
  rw [if_neg h5]
  by_cases h6 : w = Operation.Negate.code
  · rw [if_pos h6]; exact Or.inr (Or.inr ⟨_, rfl⟩)
  rw [if_neg h6]
  by_cases h7 : w = Operation.Log.code
  · rw [if_pos h7]; exact Or.inr (Or.inr ⟨_, rfl⟩)
  rw [if_neg h7]
  by_cases h8 : w = Operation.Exp.code
  · rw [if_pos h8]; exact Or.inr (Or.inr ⟨_, rfl⟩)
  rw [if_neg h8]
  by_cases h9 : w = Operation.Sin.code
  · rw [if_pos h9]; exact Or.inr (Or.inr ⟨_, rfl⟩)
  rw [if_neg h9]
  by_cases h10 : w = Operation.Cos.code
  · rw [if_pos h10]; exact Or.inr (Or.inr ⟨_, rfl⟩)
  rw [if_neg h10]
  by_cases h11 : w = Operation.Tan.code
  · rw [if_pos h11]; exact Or.inr (Or.inr ⟨_, rfl⟩)
  rw [if_neg h11]
  by_cases h12 : w = Operation.Asin.code
  · rw [if_pos h12]; exact Or.inr (Or.inr ⟨_, rfl⟩)
  rw [if_neg h12]
  by_cases h13 : w = Operation.Acos.code
  · rw [if_pos h13]; exact Or.inr (Or.inr ⟨_, rfl⟩)
  rw [if_neg h13]
  by_cases h14 : w = Operation.Atan.code
  · rw [if_pos h14]; exact Or.inr (Or.inr ⟨_, rfl⟩)
  rw [if_neg h14]
  refine Or.inl ⟨fun op => ?_, rfl⟩
  cases op <;> assumption

theorem switchBody_error {α : Type} (S : Scalar α) (instr : List Nat) (ii w : Nat)
    (m : List α) (e : SLPError) (h : switchBody S instr ii w m = .error e) :
    e = SLPError.outOfRange := by
  rcases switchBody_cases S instr ii w m with ⟨-, h1⟩ | ⟨f, h1⟩ | ⟨f, h1⟩
  · rw [h1] at h; simp at h
  · rw [h1] at h; exact binaryCase_error _ _ _ _ _ h
  · rw [h1] at h; exact unaryCase_error _ _ _ _ _ h

theorem evalLoop_fuel3 {α : Type} (S : Scalar α) (instr : List Nat) (f1 f2 ii : Nat)
    (m : List α) (h1 : instr.length ≤ ii + 3 * f1) (h2 : instr.length ≤ ii + 3 * f2) :
    evalLoop S instr f1 ii m = evalLoop S instr f2 ii m := by
  induction f1 generalizing f2 ii m with
  | zero =>
    have hn : instr[ii]? = none := List.getElem?_eq_none (by omega)
    cases f2 with
    | zero => rfl
    | succ f2 =>
      simp only [evalLoop, hn]
      rw [if_neg (by omega)]
  | succ f1 ih =>
    cases f2 with
    | zero =>
      have hn : instr[ii]? = none := List.getElem?_eq_none (by omega)
      simp only [evalLoop, hn]
      rw [if_neg (by omega)]
    | succ f2 =>
      simp only [evalLoop]
      cases h : instr[ii]? with
      | none => rfl
      | some w =>
        simp only
        cases hs : switchBody S instr ii w m with
        | error e => rfl
        | ok m' =>
          simp only
          have := le_nextIndex ii w
          exact ih f2 (nextIndex ii w) m' (by omega) (by omega)

theorem evalLoop_not_outOfFuel {α : Type} (S : Scalar α) (instr : List Nat) (fuel ii : Nat)
    (m m' : List α) (h : instr.length ≤ ii + 3 * fuel) :
    evalLoop S instr fuel ii m ≠ .error (SLPError.outOfFuel, m') := by
  induction fuel generalizing ii m with
  | zero =>
    simp only [evalLoop]
    rw [if_neg (by omega)]
    simp
  | succ fuel ih =>
    simp only [evalLoop]
    cases hw : instr[ii]? with
    | none => simp
    | some w =>
      simp only
      cases hs : switchBody S instr ii w m with
      | error e =>
        have := switchBody_error S instr ii w m e hs
        subst this
        simp
      | ok m1 =>
        simp only
        have := le_nextIndex ii w
        exact ih (nextIndex ii w) m1 (by omega)

/-- C19. `Eval` terminates on every instruction stream, whatever its words: an iteration
moves the index forward by exactly 3 or exactly 4, the loop run for at most `ceil(n/3)`
iterations on a stream of `n` words already gives the outcome of `Eval`, and that outcome is
never the exhaustion of the iterations. -/
theorem Eval_terminates {α : Type} (S : Scalar α) (instr : List Nat) (m : List α) :
    (∀ ii w, nextIndex ii w = ii + 3 ∨ nextIndex ii w = ii + 4) ∧
    evalLoop S instr ((instr.length + 2) / 3) 0 m = Eval S instr m ∧
    ∀ m', Eval S instr m ≠ .error (SLPError.outOfFuel, m') := by
  refine ⟨fun ii w => ?_, ?_, fun m' => ?_⟩
  · unfold nextIndex
    split
    · exact Or.inl rfl
    · exact Or.inr rfl
  · exact evalLoop_fuel3 S instr _ _ 0 m (by omega) (by omega)
  · exact evalLoop_not_outOfFuel S instr _ 0 m m' (by omega)

theorem switchBody_unknown {α : Type} (S : Scalar α) (instr : List Nat) (ii w : Nat)
    (m : List α) (hw : ∀ op : Operation, w ≠ op.code) :
    switchBody S instr ii w m = .ok m := by
  unfold switchBody
  rw [if_neg (hw .Add), if_neg (hw .Subtract), if_neg (hw .Multiply), if_neg (hw .Divide),
    if_neg (hw .Power), if_neg (hw .Assign), if_neg (hw .Negate), if_neg (hw .Log),
    if_neg (hw .Exp), if_neg (hw .Sin), if_neg (hw .Cos), if_neg (hw .Tan), if_neg (hw .Asin),
    if_neg (hw .Acos), if_neg (hw .Atan)]

theorem switchBody_drop {α : Type} (S : Scalar α) (instr : List Nat) (k j w : Nat)
    (m : List α) :
    switchBody S instr (k + j) w m = switchBody S (instr.drop k) j w m := by
  have h1 := List.getElem?_drop instr k (j + 1)
  have h2 := List.getElem?_drop instr k (j + 2)
  have h3 := List.getElem?_drop instr k (j + 3)
  simp only [← Nat.add_assoc] at h1 h2 h3
  simp only [switchBody, binaryCase, unaryCase, h1, h2, h3]

theorem evalLoop_drop {α : Type} (S : Scalar α) (instr : List Nat) (fuel k j : Nat)
    (m : List α) :
    evalLoop S instr fuel (k + j) m = evalLoop S (instr.drop k) fuel j m := by
  induction fuel generalizing j m with
  | zero =>
    simp only [evalLoop, List.length_drop]
    by_cases h : k + j < instr.length
    · rw [if_pos h, if_pos (by omega)]
    · rw [if_neg h, if_neg (by omega)]
  | succ fuel ih =>
    simp only [evalLoop, List.getElem?_drop, switchBody_drop]
    cases h : instr[k + j]? with
    | none => rfl
    | some w =>
      simp only
      cases hs : switchBody S (instr.drop k) j w m with
      | error e => rfl
      | ok m' =>
        simp only
        have : nextIndex (k + j) w = k + nextIndex j w := by
          unfold nextIndex; split <;> omega
        rw [this, ih]

/-- C20. A word `w` in opcode position that is none of the fifteen opcodes is skipped
silently: the switch leaves the bank unchanged, the index advances by 3 when `w` shares a bit
with `UnaryOperations` and by 4 otherwise, so that `Eval` over `w :: rest` is `Eval` over
`rest` without its first 2, respectively 3, words; a word with both a unary and a binary bit
advances by 3. -/
theorem Eval_unknown_word {α : Type} (S : Scalar α) (w : Nat) (rest : List Nat) (m : List α)
    (hw : ∀ op : Operation, w ≠ op.code) :
    (∀ instr ii, switchBody S instr ii w m = .ok m) ∧
    (∀ ii, nextIndex ii w = if w &&& UnaryOperations ≠ 0 then ii + 3 else ii + 4) ∧
    Eval S (w :: rest) m
      = Eval S (rest.drop (if w &&& UnaryOperations ≠ 0 then 2 else 3)) m ∧
    (w &&& UnaryOperations ≠ 0 → w &&& BinaryOperations ≠ 0 → ∀ ii, nextIndex ii w = ii + 3) := by
  have hnext : ∀ ii, nextIndex ii w = if w &&& UnaryOperations ≠ 0 then ii + 3 else ii + 4 := by
    intro ii
    unfold nextIndex IsUnary
    by_cases h : w &&& UnaryOperations = 0
    · simp [h]
    · simp [h]
  refine ⟨fun instr ii => switchBody_unknown S instr ii w m hw, hnext, ?_, ?_⟩
  · unfold Eval
    have h0 : (w :: rest)[0]? = some w := by simp
    rw [List.length_cons, evalLoop, h0]
    simp only [switchBody_unknown S _ _ w m hw]
    have hd := evalLoop_drop S (w :: rest) rest.length (nextIndex 0 w) 0 m
    rw [Nat.add_zero] at hd
    rw [hd, hnext 0]
    by_cases h : w &&& UnaryOperations = 0
    · simp only [h, ne_eq, not_true_eq_false, if_false, Nat.zero_add, List.drop_succ_cons]
      exact evalLoop_fuel3 S _ _ _ 0 m (by simp only [List.length_drop]; omega)
        (by simp only [List.length_drop]; omega)
    · simp only [h, ne_eq, not_false_eq_true, if_true, Nat.zero_add, List.drop_succ_cons]
      exact evalLoop_fuel3 S _ _ _ 0 m (by simp only [List.length_drop]; omega)
        (by simp only [List.length_drop]; omega)
  · intro hu _ ii
    rw [hnext ii, if_pos hu]

/-- C20 for the word `33 = Add | Exp`, which has a binary and a unary bit. -/
theorem Eval_unknown_word_witness :
    (∀ op : Operation, 33 ≠ op.code) ∧
    ((∀ instr ii, switchBody symScalar instr ii 33 exampleBank = .ok exampleBank) ∧
    (∀ ii, nextIndex ii 33 = if 33 &&& UnaryOperations ≠ 0 then ii + 3 else ii + 4) ∧
    Eval symScalar (33 :: [0, 1, 2]) exampleBank
      = Eval symScalar ([0, 1, 2].drop (if 33 &&& UnaryOperations ≠ 0 then 2 else 3))
          exampleBank ∧
    (33 &&& UnaryOperations ≠ 0 → 33 &&& BinaryOperations ≠ 0 →
      ∀ ii, nextIndex ii 33 = ii + 3)) :=
  ⟨fun op => by cases op <;> decide,
    Eval_unknown_word symScalar 33 [0, 1, 2] exampleBank (fun op => by cases op <;> decide)⟩

/-! ## Staging of the inputs -/

theorem writeMem_error {α : Type} (m : List α) (i : Nat) (v : α) (e : SLPError)
    (h : writeMem m i v = .error e) : e = SLPError.outOfRange := by
  unfold writeMem at h
  split at h
  · simp at h
  · simp only [Except.error.injEq] at h; exact h.symm

theorem copyLoop_ok {α : Type} (vals mem : List α) (off V : Nat) (hV : V ≤ vals.length)
    (hmem : off + V ≤ mem.length) :
    ∃ mem', forLoop (fun ii memory => statement memory
        (match vals[ii]? with
        | some v => writeMem memory (ii + off) v
        | none => .error .outOfRange)) V mem = .ok mem' ∧
      mem'.length = mem.length ∧ (∀ k, k < V → mem'[off + k]? = vals[k]?) ∧
      ∀ s, s < off ∨ off + V ≤ s → mem'[s]? = mem[s]? := by
  refine forLoop_invariant _
    (fun n (m1 : List α) => m1.length = mem.length ∧ (∀ k, k < n → m1[off + k]? = vals[k]?) ∧
      ∀ s, s < off ∨ off + n ≤ s → m1[s]? = mem[s]?)
    V mem ⟨rfl, fun k hk => absurd hk (Nat.not_lt_zero k), fun _ _ => rfl⟩ ?_
  intro n m1 hn ⟨hl, hv, hf⟩
  have hlt : n < vals.length := by omega
  have hw : n + off < m1.length := by omega
  simp only [List.getElem?_eq_getElem hlt, writeMem, if_pos hw, statement]
  refine ⟨_, rfl, by rw [List.length_set, hl], ?_, ?_⟩
  · intro k hk
    by_cases hkn : k = n
    · subst hkn
      rw [Nat.add_comm off k, List.getElem?_set_self hw, List.getElem?_eq_getElem hlt]
    · rw [List.getElem?_set_ne (by omega)]
      exact hv k (by omega)
  · intro s hs
    rw [List.getElem?_set_ne (by omega)]
    exact hf s (by omega)

theorem copyLoop_frame {α : Type} (vals mem : List α) (off V : Nat) :
    (forLoop (fun ii memory => statement memory
        (match vals[ii]? with
        | some v => writeMem memory (ii + off) v
        | none => .error .outOfRange)) V mem).state.length = mem.length ∧
    ∀ s, s < off ∨ off + V ≤ s →
      (forLoop (fun ii memory => statement memory
        (match vals[ii]? with
        | some v => writeMem memory (ii + off) v
        | none => .error .outOfRange)) V mem).state[s]? = mem[s]? := by
  induction V with
  | zero => exact ⟨rfl, fun _ _ => rfl⟩
  | succ n ih =>
    obtain ⟨hl, hf⟩ := ih
    simp only [forLoop]
    cases hn : forLoop (fun ii memory => statement memory
        (match vals[ii]? with
        | some v => writeMem memory (ii + off) v
        | none => .error .outOfRange)) n mem with
    | error f =>
      rw [hn] at hl hf
      exact ⟨hl, fun s hs => hf s (by omega)⟩
    | ok m1 =>
      rw [hn] at hl hf
      simp only [Result.state] at hl hf
      simp only [statement]
      cases hv : vals[n]? with
      | none => exact ⟨hl, fun s hs => hf s (by omega)⟩
      | some v =>
        simp only [writeMem]
        by_cases hw : n + off < m1.length
        · simp only [if_pos hw, Result.state]
          refine ⟨by rw [List.length_set, hl], fun s hs => ?_⟩
          rw [List.getElem?_set_ne (by omega)]
          exact hf s (by omega)
        · simp only [if_neg hw, Result.state]
          exact ⟨hl, fun s hs => hf s (by omega)⟩

theorem copyLoop_error {α : Type} (vals mem : List α) (off V : Nat) (e : SLPError)
    (m1 : List α)
    (h : forLoop (fun ii memory => statement memory
        (match vals[ii]? with
        | some v => writeMem memory (ii + off) v
        | none => .error .outOfRange)) V mem = .error (e, m1)) :
    e = SLPError.outOfRange := by
  refine forLoop_statement_error
    (fun ii (memory : List α) =>
      match vals[ii]? with
      | some v => writeMem memory (ii + off) v
      | none => .error .outOfRange) V mem ?_ e m1 h
  intro k s1 e1 he1
  dsimp only at he1
  split at he1
  · exact writeMem_error _ _ _ _ he1
  · simp only [Except.error.injEq] at he1
    exact he1.symm

theorem copyLoop_short {α : Type} (vals mem : List α) (off V : Nat) (hV : vals.length < V) :
    ∃ m1, forLoop (fun ii memory => statement memory
        (match vals[ii]? with
        | some v => writeMem memory (ii + off) v
        | none => .error .outOfRange)) V mem = .error (SLPError.outOfRange, m1) := by
  induction V with
  | zero => exact absurd hV (Nat.not_lt_zero _)
  | succ n ih =>
    simp only [forLoop]
    cases hn : forLoop (fun ii memory => statement memory
        (match vals[ii]? with
        | some v => writeMem memory (ii + off) v
        | none => .error .outOfRange)) n mem with
    | error f =>
      obtain ⟨e, m1⟩ := f
      have := copyLoop_error vals mem off n e m1 hn
      subst this
      exact ⟨m1, rfl⟩
    | ok m1 =>
      by_cases hlt : vals.length < n
      · obtain ⟨m2, h2⟩ := ih hlt
        rw [hn] at h2
        simp at h2
      · have hnone : vals[n]? = none := List.getElem?_eq_none (by omega)
        simp only [hnone, statement]
        exact ⟨m1, rfl⟩

theorem CopyVariableValues_ok {α : Type} (slp : StraightLineProgram α) (vals : List α)
    (hV : slp.number_of_.Variables ≤ vals.length)
    (hmem : slp.output_locations_.Variables + slp.number_of_.Variables ≤ slp.memory_.length) :
    ∃ mem', slp.CopyVariableValues vals = .ok { slp with memory_ := mem' } ∧
      mem'.length = slp.memory_.length ∧
      (∀ k, k < slp.number_of_.Variables →
        mem'[slp.output_locations_.Variables + k]? = vals[k]?) ∧
      ∀ s, s < slp.output_locations_.Variables ∨
          slp.output_locations_.Variables + slp.number_of_.Variables ≤ s →
        mem'[s]? = slp.memory_[s]? := by
  obtain ⟨mem', h, hl, hv, hf⟩ := copyLoop_ok vals slp.memory_ slp.output_locations_.Variables
    slp.number_of_.Variables hV hmem
  exact ⟨mem', by simp only [StraightLineProgram.CopyVariableValues, h], hl, hv, hf⟩

theorem CopyVariableValues_short {α : Type} (slp : StraightLineProgram α) (vals : List α)
    (hV : vals.length < slp.number_of_.Variables) :
    ∃ slp', slp.CopyVariableValues vals = .error (SLPError.outOfRange, slp') := by
  obtain ⟨m1, h⟩ := copyLoop_short vals slp.memory_ slp.output_locations_.Variables
    slp.number_of_.Variables hV
  exact ⟨{ slp with memory_ := m1 }, by simp only [StraightLineProgram.CopyVariableValues, h]⟩

theorem CopyVariableValues_error {α : Type} (slp slp' : StraightLineProgram α) (vals : List α)
    (e : SLPError) (h : slp.CopyVariableValues vals = .error (e, slp')) :
    e = SLPError.outOfRange := by
  unfold StraightLineProgram.CopyVariableValues at h
  split at h
  · rename_i e1 m1 heq
    simp only [Except.error.injEq, Prod.mk.injEq] at h
    rw [← h.1]
    exact copyLoop_error vals slp.memory_ _ _ e1 m1 heq
  · simp at h

theorem CopyVariableValues_frame {α : Type} (slp : StraightLineProgram α) (vals : List α) :
    (slp.CopyVariableValues vals).state.memory_.length = slp.memory_.length ∧
    ∀ s, s < slp.output_locations_.Variables ∨
        slp.output_locations_.Variables + slp.number_of_.Variables ≤ s →
      (slp.CopyVariableValues vals).state.memory_[s]? = slp.memory_[s]? := by
  have key := copyLoop_frame vals slp.memory_ slp.output_locations_.Variables
    slp.number_of_.Variables
  unfold StraightLineProgram.CopyVariableValues
  revert key
  cases forLoop (fun ii memory => statement memory
      (match vals[ii]? with
      | some v => writeMem memory (ii + slp.output_locations_.Variables) v
      | none => .error .outOfRange)) slp.number_of_.Variables slp.memory_ with
  | error f => exact fun k => k
  | ok m1 => exact fun k => k

theorem evalLoop_error {α : Type} (S : Scalar α) (instr : List Nat) (fuel ii : Nat)
    (m m' : List α) (e : SLPError) (h : evalLoop S instr fuel ii m = .error (e, m')) :
    e = SLPError.outOfRange ∨ e = SLPError.outOfFuel := by
  induction fuel generalizing ii m with
  | zero =>
    simp only [evalLoop] at h
    split at h
    · simp only [Except.error.injEq, Prod.mk.injEq] at h
      exact Or.inr h.1.symm
    · simp at h
  | succ fuel ih =>
    simp only [evalLoop] at h
    cases hw : instr[ii]? with
    | none => rw [hw] at h; simp at h
    | some w =>
      rw [hw] at h
      simp only at h
      cases hs : switchBody S instr ii w m with
      | error e1 =>
        rw [hs] at h
        simp only [Except.error.injEq, Prod.mk.injEq] at h
        rw [← h.1]
        exact Or.inl (switchBody_error S instr ii w m e1 hs)
      | ok m1 =>
        rw [hs] at h
        exact ih _ _ h

theorem EvalNumT_error {α : Type} (S : Scalar α) (slp slp' : StraightLineProgram α)
    (e : SLPError) (h : slp.EvalNumT S = .error (e, slp')) : e = SLPError.outOfRange := by
  unfold StraightLineProgram.EvalNumT at h
  split at h
  · rename_i e1 m1 heq
    simp only [Except.error.injEq, Prod.mk.injEq] at h
    rw [← h.1]
    rcases evalLoop_error S _ _ 0 _ m1 e1 heq with h1 | h1
    · exact h1
    · subst h1
      exact absurd heq (evalLoop_not_outOfFuel S _ _ 0 _ m1 (by omega))
  · simp at h

theorem EvalVars_error {α : Type} (S : Scalar α) (slp slp' : StraightLineProgram α)
    (vals : List α) (e : SLPError) (h : slp.EvalVars S vals = .error (e, slp')) :
    e = SLPError.outOfRange := by
  unfold StraightLineProgram.EvalVars at h
  cases hc : slp.CopyVariableValues vals with
  | error f =>
    rw [hc] at h
    simp only [Except.error.injEq] at h
    subst h
    exact CopyVariableValues_error slp slp' vals e hc
  | ok slp1 =>
    rw [hc] at h
    exact EvalNumT_error S slp1 slp' e h

theorem EvalVarsTime_cases {α : Type} (S : Scalar α) (slp : StraightLineProgram α)
    (vals : List α) (time : α) :
    (∃ f, slp.CopyVariableValues vals = .error f ∧ slp.EvalVarsTime S vals time = .error f) ∨
    ∃ slp1, slp.CopyVariableValues vals = .ok slp1 ∧
      slp.EvalVarsTime S vals time
        = .error (.runtimeError "calling unimplemented function HavePathVariable", slp1) := by
  unfold StraightLineProgram.EvalVarsTime
  cases hc : slp.CopyVariableValues vals with
  | error f => exact Or.inl ⟨f, rfl, rfl⟩
  | ok slp1 => exact Or.inr ⟨slp1, rfl, rfl⟩

theorem EvalVars_ok {α : Type} (S : Scalar α) (slp : StraightLineProgram α) (vals : List α)
    (is : List Instruction) (hV : slp.number_of_.Variables ≤ vals.length)
    (hmem : slp.output_locations_.Variables + slp.number_of_.Variables ≤ slp.memory_.length)
    (his : slp.instructions_ = encode is) (hb : ∀ i ∈ is, i.inBounds slp.memory_.length) :
    ∃ slp', slp.EvalVars S vals = .ok slp' := by
  obtain ⟨mem', hc, hl, -, -⟩ := CopyVariableValues_ok slp vals hV hmem
  obtain ⟨m2, h2⟩ := execAll_ok_of_inBounds S is mem' (by rw [hl]; exact hb)
  refine ⟨{ slp with memory_ := m2 }, ?_⟩
  simp only [StraightLineProgram.EvalVars, hc, StraightLineProgram.EvalNumT, his, Eval_encode, h2]

/-- C6, the code at an object whose two location records disagree on the variables
(`input_locations_.Variables = 0`, `output_locations_.Variables = 1`, one variable):
`CopyVariableValues` assigns the value to slot `output_locations_.Variables + 0 = 1`; slot
`input_locations_.Variables + 0 = 0` keeps its old value. -/
theorem CopyVariableValues_at_output_locations :
    exampleStaging.input_locations_.Variables = 0 ∧
    exampleStaging.output_locations_.Variables = 1 ∧
    exampleStaging.NumVariables = 1 ∧
    exampleStaging.memory_ = [Sym.val 0, Sym.val 1, Sym.val 2] ∧
    exampleStaging.CopyVariableValues [Sym.val 9]
      = .ok { exampleStaging with memory_ := [Sym.val 0, Sym.val 9, Sym.val 2] } :=
  ⟨rfl, rfl, rfl, rfl, rfl⟩

/-- C9, refuted as stated: on an object built with a path variable, `Eval(vars)` without a
time raises nothing and runs the instructions. -/
theorem EvalVars_completes_with_path_variable :
    exampleSwap.has_path_variable_ = true ∧
    exampleSwap.EvalVars symScalar [Sym.val 7, Sym.val 8]
      = .ok { exampleSwap with
          memory_ := [Sym.val 7, Sym.val 8, Sym.val 8, Sym.val 7, Sym.val 4] } :=
  ⟨rfl, rfl⟩

/-- C9 (as amended). `Eval(vars, time)` fails on every object built without a path variable,
and when the copy of the variables went through the failure is a thrown `std::runtime_error`.
`Eval(vars)` without a time makes no path-variable check: whether or not the object has a
path variable it never throws a `std::runtime_error`, and it completes whenever `vars` has at
least `V` entries, the `V` variable slots lie in the bank and the stream consists of complete
instructions with in-bounds slots. -/
theorem Eval_path_variable_check {α : Type} (S : Scalar α) (slp : StraightLineProgram α)
    (vals : List α) (time : α) :
    (slp.has_path_variable_ = false →
      (∃ f, slp.EvalVarsTime S vals time = .error f) ∧
      ∀ slp1, slp.CopyVariableValues vals = .ok slp1 →
        ∃ msg, slp.EvalVarsTime S vals time = .error (.runtimeError msg, slp1)) ∧
    (∀ msg slp', slp.EvalVars S vals ≠ .error (.runtimeError msg, slp')) ∧
    (∀ is, slp.NumVariables ≤ vals.length →
      slp.output_locations_.Variables + slp.NumVariables ≤ slp.memory_.length →
      slp.instructions_ = encode is → (∀ i ∈ is, i.inBounds slp.memory_.length) →
      ∃ slp', slp.EvalVars S vals = .ok slp') := by
  refine ⟨fun _ => ⟨?_, fun slp1 h1 => ?_⟩, fun msg slp' h => ?_, fun is h1 h2 h3 h4 => ?_⟩
  · rcases EvalVarsTime_cases S slp vals time with ⟨f, -, hf⟩ | ⟨slp1, -, h1⟩
    · exact ⟨f, hf⟩
    · exact ⟨_, h1⟩
  · rcases EvalVarsTime_cases S slp vals time with ⟨f, hc, -⟩ | ⟨slp2, hc, h2⟩
    · rw [hc] at h1; simp at h1
    · rw [hc] at h1
      simp only [Except.ok.injEq] at h1
      subst h1
      exact ⟨_, h2⟩
  · have := EvalVars_error S slp slp' vals _ h
    simp at this
  · exact EvalVars_ok S slp vals is h1 h2 h3 h4

/-- C9 (as amended) on the object `exampleOutputs`, built without a path variable. -/
theorem Eval_path_variable_check_witness :
    exampleOutputs.has_path_variable_ = false ∧
    (∃ f, exampleOutputs.EvalVarsTime symScalar [Sym.val 7, Sym.val 8, Sym.val 9] (Sym.val 1)
      = .error f) ∧
    ∃ slp', exampleOutputs.EvalVars symScalar [Sym.val 7, Sym.val 8, Sym.val 9] = .ok slp' :=
  ⟨rfl,
    ((Eval_path_variable_check symScalar exampleOutputs [Sym.val 7, Sym.val 8, Sym.val 9]
      (Sym.val 1)).1 rfl).1,
    (Eval_path_variable_check symScalar exampleOutputs [Sym.val 7, Sym.val 8, Sym.val 9]
      (Sym.val 1)).2.2 [] (by decide) (by decide) rfl (by decide)⟩

/-- C10, refuted as stated: with two variables and an input vector of three entries,
`CopyVariableValues` raises nothing and assigns the first two entries to memory, and
`Eval(vec)` runs to completion. -/
theorem CopyVariableValues_accepts_longer_vector :
    [Sym.val 7, Sym.val 8, Sym.val 9].length ≠ exampleSwap.NumVariables ∧
    exampleSwap.CopyVariableValues [Sym.val 7, Sym.val 8, Sym.val 9]
      = .ok { exampleSwap with
          memory_ := [Sym.val 7, Sym.val 8, Sym.val 2, Sym.val 3, Sym.val 4] } ∧
    exampleSwap.EvalVars symScalar [Sym.val 7, Sym.val 8, Sym.val 9]
      = .ok { exampleSwap with
          memory_ := [Sym.val 7, Sym.val 8, Sym.val 8, Sym.val 7, Sym.val 4] } :=
  ⟨by decide, rfl, rfl⟩

/-- C10 (as amended). `CopyVariableValues(vec)` has no length check.  With the `V` slots from
`output_locations_.Variables` inside the bank: when `vec` has at least `V` entries (`V` or
more) the call completes and slot `output_locations_.Variables + k` holds `vec[k]` for every
`k < V`; when `vec` has fewer than `V` entries the call, and with it `Eval(vec)`, fails on a
read of `vec` outside its range. -/
theorem CopyVariableValues_no_length_check {α : Type} (S : Scalar α)
    (slp : StraightLineProgram α) (vec : List α)
    (hmem : slp.output_locations_.Variables + slp.NumVariables ≤ slp.memory_.length) :
    (slp.NumVariables ≤ vec.length →
      ∃ slp', slp.CopyVariableValues vec = .ok slp' ∧
        ∀ k, k < slp.NumVariables →
          slp'.memory_[slp.output_locations_.Variables + k]? = vec[k]?) ∧
    (vec.length < slp.NumVariables →
      (∃ slp', slp.CopyVariableValues vec = .error (SLPError.outOfRange, slp')) ∧
      ∃ slp', slp.EvalVars S vec = .error (SLPError.outOfRange, slp')) := by
  unfold StraightLineProgram.NumVariables at *
  refine ⟨fun hV => ?_, fun hV => ?_⟩
  · obtain ⟨mem', hc, -, hv, -⟩ := CopyVariableValues_ok slp vec hV hmem
    exact ⟨_, hc, hv⟩
  · obtain ⟨slp', hc⟩ := CopyVariableValues_short slp vec hV
    exact ⟨⟨slp', hc⟩, slp', by simp only [StraightLineProgram.EvalVars, hc]⟩

/-- C10 (as amended) on the object `exampleSwap` and a vector of three entries. -/
theorem CopyVariableValues_no_length_check_witness :
    (exampleSwap.output_locations_.Variables + exampleSwap.NumVariables
      ≤ exampleSwap.memory_.length) ∧
    exampleSwap.NumVariables ≤ [Sym.val 7, Sym.val 8, Sym.val 9].length ∧
    ∃ slp', exampleSwap.CopyVariableValues [Sym.val 7, Sym.val 8, Sym.val 9] = .ok slp' ∧
      ∀ k, k < exampleSwap.NumVariables →
        slp'.memory_[exampleSwap.output_locations_.Variables + k]?
          = [Sym.val 7, Sym.val 8, Sym.val 9][k]? :=
  ⟨by decide, by decide,
    (CopyVariableValues_no_length_check symScalar exampleSwap
      [Sym.val 7, Sym.val 8, Sym.val 9] (by decide)).1 (by decide)⟩

/-- C16. A failing `Eval(vars, time)` exposes no partially computed outputs: whenever the
call fails, the state at the failure is a state of the copy of the variables (the copy failed
there, or it completed and the path-variable step threw), so no instruction has been
executed; the bank has kept its length, and every slot outside the variable slots
`[output_locations_.Variables, output_locations_.Variables + V)` that the copy assigns, hence
every slot of an output range disjoint from them, holds the value it held before the call.
When the two location records agree on the variables these are the slots
`[input_locations_.Variables, input_locations_.Variables + V)`. -/
theorem EvalVarsTime_failure_state {α : Type} (S : Scalar α) (slp slp' : StraightLineProgram α)
    (vals : List α) (time : α) (e : SLPError)
    (h : slp.EvalVarsTime S vals time = .error (e, slp')) :
    (slp.CopyVariableValues vals = .error (e, slp') ∨ slp.CopyVariableValues vals = .ok slp') ∧
    slp'.memory_.length = slp.memory_.length ∧
    (∀ s, s < slp.output_locations_.Variables ∨
        slp.output_locations_.Variables + slp.NumVariables ≤ s →
      slp'.memory_[s]? = slp.memory_[s]?) ∧
    (slp.input_locations_.Variables = slp.output_locations_.Variables →
      ∀ s, s < slp.input_locations_.Variables ∨
          slp.input_locations_.Variables + slp.NumVariables ≤ s →
        slp'.memory_[s]? = slp.memory_[s]?) := by
  obtain ⟨hl, hf⟩ := CopyVariableValues_frame slp vals
  have key : (slp.CopyVariableValues vals = .error (e, slp') ∨
        slp.CopyVariableValues vals = .ok slp') ∧
      (slp.CopyVariableValues vals).state = slp' := by
    rcases EvalVarsTime_cases S slp vals time with ⟨f, hc, hf1⟩ | ⟨slp1, hc, h1⟩
    · rw [hf1] at h
      simp only [Except.error.injEq] at h
      subst h
      exact ⟨Or.inl hc, by rw [hc]; rfl⟩
    · rw [h1] at h
      simp only [Except.error.injEq, Prod.mk.injEq] at h
      obtain ⟨-, h2⟩ := h
      subst h2
      exact ⟨Or.inr hc, by rw [hc]; rfl⟩
  obtain ⟨hcase, hstate⟩ := key
  rw [hstate] at hl hf
  refine ⟨hcase, hl, hf, fun heq s hs => ?_⟩
  rw [heq] at hs
  exact hf s hs

/-- C16 on the object `exampleSwap`: the call fails, and the function slots 2 and 3 are as
before. -/
theorem EvalVarsTime_failure_state_witness :
    exampleSwap.EvalVarsTime symScalar [Sym.val 7, Sym.val 8] (Sym.val 1)
      = .error (.runtimeError "calling unimplemented function HavePathVariable",
          { exampleSwap with
            memory_ := [Sym.val 7, Sym.val 8, Sym.val 2, Sym.val 3, Sym.val 4] }) ∧
    ∀ s, s < exampleSwap.output_locations_.Variables ∨
        exampleSwap.output_locations_.Variables + exampleSwap.NumVariables ≤ s →
      [Sym.val 7, Sym.val 8, Sym.val 2, Sym.val 3, Sym.val 4][s]? = exampleSwap.memory_[s]? :=
  ⟨rfl, (EvalVarsTime_failure_state symScalar exampleSwap
      { exampleSwap with memory_ := [Sym.val 7, Sym.val 8, Sym.val 2, Sym.val 3, Sym.val 4] }
      [Sym.val 7, Sym.val 8] (Sym.val 1) _ rfl).2.2.1⟩

/-- C15, the code at an object whose two location records disagree on the variables: the one
instruction is `(Assign, input.variables + 0, out.functions + 0)` with the function slot 2 in
bounds and outside both variable ranges; `Eval(x)` with `x = (9)` followed by `GetFuncVals`
returns the old value of slot 0, not `x[0]`. -/
theorem projection_at_disagreeing_locations :
    exampleStaging.instructions_
      = encode [⟨.Assign, exampleStaging.input_locations_.Variables + 0, 0,
          exampleStaging.output_locations_.Functions + 0⟩] ∧
    exampleStaging.EvalVars symScalar [Sym.val 9]
      = .ok { exampleStaging with memory_ := [Sym.val 0, Sym.val 9, Sym.val 0] } ∧
    ∃ r, StraightLineProgram.GetFuncVals
        { exampleStaging with memory_ := [Sym.val 0, Sym.val 9, Sym.val 0] } emptyVec
        = .ok (r, { exampleStaging with memory_ := [Sym.val 0, Sym.val 9, Sym.val 0] }) ∧
      r.size = 1 ∧ r.coeff 0 = some (Sym.val 0) ∧ r.coeff 0 ≠ some (Sym.val 9) := by
  refine ⟨rfl, rfl, ?_⟩
  obtain ⟨r, hr, hs, hval⟩ := GetFuncVals_run
    ({ exampleStaging with memory_ := [Sym.val 0, Sym.val 9, Sym.val 0] } :
      StraightLineProgram Sym) emptyVec (by decide)
  have h0 : r.coeff 0 = some (Sym.val 0) := hval 0 (by decide)
  refine ⟨r, hr, hs, h0, ?_⟩
  rw [h0]
  decide

/-! ## The compiler: numeric nodes -/

/-- C21. `DealWithNumber` allocates a fresh slot for a numeric node: from a compiler state
with next free slot `k`, after `DealWithNumber(n)` the constant table of the SLP under
construction is the table before followed by the pair `(n, k)`, the registry maps `n` to `k`,
the next free slot is `k + 1`, and the registry entry of every other node is unchanged;
consequently, if every slot in the registry was below the next free slot before the call,
the same holds after it. -/
theorem DealWithNumber_allocates {α : Type} (c : SLPCompiler α) (n : Nat) :
    (c.DealWithNumber n).slp_under_construction_.true_values_of_numbers_
      = c.slp_under_construction_.true_values_of_numbers_ ++ [(n, c.next_available_mem_)] ∧
    (n, c.next_available_mem_)
      ∈ (c.DealWithNumber n).slp_under_construction_.true_values_of_numbers_ ∧
    (c.DealWithNumber n).locations_encountered_symbols_ n = some c.next_available_mem_ ∧
    (c.DealWithNumber n).next_available_mem_ = c.next_available_mem_ + 1 ∧
    (∀ n', n' ≠ n →
      (c.DealWithNumber n).locations_encountered_symbols_ n'
        = c.locations_encountered_symbols_ n') ∧
    ((∀ n' s, c.locations_encountered_symbols_ n' = some s → s < c.next_available_mem_) →
      ∀ n' s, (c.DealWithNumber n).locations_encountered_symbols_ n' = some s →
        s < (c.DealWithNumber n).next_available_mem_) := by
  have hself : (c.DealWithNumber n).locations_encountered_symbols_ n
      = some c.next_available_mem_ := by
    show (if n = n then some c.next_available_mem_ else _) = _
    rw [if_pos rfl]
  have hother : ∀ n', n' ≠ n →
      (c.DealWithNumber n).locations_encountered_symbols_ n'
        = c.locations_encountered_symbols_ n' := by
    intro n' hne
    show (if n' = n then some c.next_available_mem_ else _) = _
    rw [if_neg hne]
  refine ⟨rfl, ?_, hself, rfl, hother, ?_⟩
  · show (n, c.next_available_mem_)
      ∈ c.slp_under_construction_.true_values_of_numbers_ ++ [(n, c.next_available_mem_)]
    exact List.mem_append_right _ (List.mem_singleton.mpr rfl)
  · intro hinv n' s hs
    show s < c.next_available_mem_ + 1
    by_cases hne : n' = n
    · subst hne
      rw [hself] at hs
      simp only [Option.some.injEq] at hs
      omega
    · rw [hother n' hne] at hs
      have := hinv n' s hs
      omega

/-- C21 on a compiler state with nodes 100 and 200 in slots 0 and 1 and next free slot 2:
after `DealWithNumber` on node 300 every registered slot is below the next free slot 3. -/
theorem DealWithNumber_allocates_witness :
    (∀ n' s, exampleCompiler.locations_encountered_symbols_ n' = some s →
      s < exampleCompiler.next_available_mem_) ∧
    (exampleCompiler.DealWithNumber 300).locations_encountered_symbols_ 300 = some 2 ∧
    (exampleCompiler.DealWithNumber 300).next_available_mem_ = 3 ∧
    ∀ n' s, (exampleCompiler.DealWithNumber 300).locations_encountered_symbols_ n' = some s →
      s < (exampleCompiler.DealWithNumber 300).next_available_mem_ :=
  have hinv : ∀ n' s, exampleCompiler.locations_encountered_symbols_ n' = some s →
      s < exampleCompiler.next_available_mem_ := by
    intro n' s hs
    show s < 2
    have h : (if n' = 100 then some 0 else if n' = 200 then some 1 else none) = some s := hs
    split at h
    · simp only [Option.some.injEq] at h; omega
    · split at h
      · simp only [Option.some.injEq] at h; omega
      · simp at h
  ⟨hinv, (DealWithNumber_allocates exampleCompiler 300).2.2.1,
    (DealWithNumber_allocates exampleCompiler 300).2.2.2.1,
    (DealWithNumber_allocates exampleCompiler 300).2.2.2.2.2 hinv⟩

end bertini
